import Mathlib

set_option maxRecDepth 100000

/-!
Verification of the media catalog engine of jellofin-rs-v2.

The Rust sources are embedded shallowly: pure functions become Lean
functions over `Nat`/`Int`/`List`/`String`, machine integers are modelled
as `Nat`/`Int` with explicit bounds where the source checks them, fallible
code returns `Option`/`Except`, and the concurrent snapshot store is
modelled as an explicit small-step transition system.  Timestamp fields
(`created`, `first_video`, `last_video`), `Metadata` (always
`Metadata::default()` in the scan path) and subtitle lists are omitted from
the record embeddings: no verified property mentions them.  Unicode-aware
Rust string operations (`to_lowercase`, `trim`, `char::is_whitespace`) are
modelled on their ASCII fragment, which is exact for all inputs considered
here.
-/

namespace Jellofin

/-! ## Basic string and number helpers -/

/-- ASCII lowercase of a character, the fragment of Rust
`char::to_lowercase` / `str::to_lowercase` used by the claims. -/
def lowerChar (c : Char) : Char :=
  if 'A' ≤ c ∧ c ≤ 'Z' then Char.ofNat (c.toNat + 32) else c

/-- ASCII lowercase of a string (models `str::to_lowercase`). -/
def lowerStr (s : String) : String :=
  ⟨s.data.map lowerChar⟩

/-- ASCII whitespace (models the whitespace class used by `str::trim`). -/
def isWs (c : Char) : Bool :=
  c = ' ' ∨ c = '\t' ∨ c = '\n' ∨ c = '\r'

/-- Drop leading characters satisfying `p`. -/
def dropWhileL (p : Char → Bool) (l : List Char) : List Char :=
  l.dropWhile p

/-- Models `str::trim`: drop ASCII whitespace at both ends. -/
def trimL (l : List Char) : List Char :=
  ((l.dropWhile isWs).reverse.dropWhile isWs).reverse

def trimStr (s : String) : String :=
  ⟨trimL s.data⟩

/-- Is this a decimal digit (`[0-9]`)? -/
def isDig (c : Char) : Bool :=
  48 ≤ c.toNat ∧ c.toNat ≤ 57

/-- Numeric value of a digit list, most significant first. -/
def digitsVal (l : List Char) : Nat :=
  l.foldl (fun a c => a * 10 + (c.toNat - 48)) 0

/-- Maximum value of an `i32`. -/
def i32Max : Nat := 2147483647

/-- Models `str::parse::<i32>()` on a capture made of decimal digits:
returns the value when it fits in an `i32`, `none` on overflow. -/
def parseDigitsI32 (l : List Char) : Option Int :=
  if l = [] then none
  else if digitsVal l ≤ i32Max then some (digitsVal l) else none

/-- Models `str::parse::<i32>()` on an arbitrary string: optional sign,
then one or more digits, nothing else, and an `i32` range check. -/
def parseI32Str (l : List Char) : Option Int :=
  match l with
  | '+' :: rest =>
      if rest ≠ [] ∧ rest.all isDig ∧ digitsVal rest ≤ i32Max then
        some (digitsVal rest)
      else none
  | '-' :: rest =>
      if rest ≠ [] ∧ rest.all isDig ∧ digitsVal rest ≤ i32Max + 1 then
        some (-(digitsVal rest : Int))
      else none
  | _ =>
      if l ≠ [] ∧ l.all isDig ∧ digitsVal l ≤ i32Max then
        some (digitsVal l)
      else none

/-- Decimal digit characters of `n`, most significant first (fuel-driven so
that it reduces definitionally). -/
def natDigitsAux : Nat → Nat → List Char
  | 0, _ => []
  | _ + 1, 0 => []
  | fuel + 1, n =>
      natDigitsAux fuel (n / 10) ++ [Char.ofNat (n % 10 + 48)]

/-- Decimal representation of a natural number. -/
def natToStr (n : Nat) : String :=
  if n = 0 then "0" else ⟨natDigitsAux (n + 1) n⟩

/-- Models the Rust format specifier `{:02}` on a nonnegative number. -/
def pad02 (n : Nat) : String :=
  if n < 10 then ⟨['0', Char.ofNat (n + 48)]⟩ else natToStr n

/-! ## SHA-256 (src/idhash/mod.rs depends on the `sha2` crate)

A direct embedding of FIPS 180-4 SHA-256 over byte lists, all words being
naturals reduced mod 2^32. -/

def w32 : Nat := 4294967296

def add32 (a b : Nat) : Nat := (a + b) % w32

def rotr32 (n x : Nat) : Nat := x / 2 ^ n + x % 2 ^ n * 2 ^ (32 - n)

def shaBigSigma0 (x : Nat) : Nat :=
  Nat.xor (rotr32 2 x) (Nat.xor (rotr32 13 x) (rotr32 22 x))

def shaBigSigma1 (x : Nat) : Nat :=
  Nat.xor (rotr32 6 x) (Nat.xor (rotr32 11 x) (rotr32 25 x))

def shaSmallSigma0 (x : Nat) : Nat :=
  Nat.xor (rotr32 7 x) (Nat.xor (rotr32 18 x) (x / 8))

def shaSmallSigma1 (x : Nat) : Nat :=
  Nat.xor (rotr32 17 x) (Nat.xor (rotr32 19 x) (x / 1024))

def shaCh (e f g : Nat) : Nat :=
  Nat.xor (Nat.land e f) (Nat.land (Nat.xor e 4294967295) g)

def shaMaj (a b c : Nat) : Nat :=
  Nat.xor (Nat.land a b) (Nat.xor (Nat.land a c) (Nat.land b c))

def shaK : List Nat :=
  [1116352408, 1899447441, 3049323471, 3921009573, 961987163, 1508970993,
   2453635748, 2870763221, 3624381080, 310598401, 607225278, 1426881987,
   1925078388, 2162078206, 2614888103, 3248222580, 3835390401, 4022224774,
   264347078, 604807628, 770255983, 1249150122, 1555081692, 1996064986,
   2554220882, 2821834349, 2952996808, 3210313671, 3336571891, 3584528711,
   113926993, 338241895, 666307205, 773529912, 1294757372, 1396182291,
   1695183700, 1986661051, 2177026350, 2456956037, 2730485921, 2820302411,
   3259730800, 3345764771, 3516065817, 3600352804, 4094571909, 275423344,
   430227734, 506948616, 659060556, 883997877, 958139571, 1322822218,
   1537002063, 1747873779, 1955562222, 2024104815, 2227730452, 2361852424,
   2428436474, 2756734187, 3204031479, 3329325298]

def shaH0 : List Nat :=
  [1779033703, 3144134277, 1013904242, 2773480762,
   1359893119, 2600822924, 528734635, 1541459225]

/-- Big-endian value of a byte list. -/
def beVal (l : List Nat) : Nat :=
  l.foldl (fun a b => a * 256 + b) 0

/-- `n` as a big-endian list of `k` bytes. -/
def beBytes : Nat → Nat → List Nat
  | 0, _ => []
  | k + 1, n => beBytes k (n / 256) ++ [n % 256]

/-- SHA-256 message padding of a byte list. -/
def shaPad (msg : List Nat) : List Nat :=
  let l := msg.length
  let k := (64 + 55 - l % 64) % 64
  msg ++ [0x80] ++ List.replicate k 0 ++ beBytes 8 (8 * l)

/-- Split a list into chunks of `k` elements (fuel-driven). -/
def chunksAux (k : Nat) : Nat → List Nat → List (List Nat)
  | 0, _ => []
  | _ + 1, [] => []
  | fuel + 1, l => l.take k :: chunksAux k fuel (l.drop k)

def chunks (k : Nat) (l : List Nat) : List (List Nat) :=
  chunksAux k (l.length + 1) l

/-- Extend the 16 message words to the 64-entry schedule. -/
def shaSchedExtend : Nat → List Nat → List Nat
  | 0, ws => ws
  | fuel + 1, ws =>
      let n := ws.length
      let nw := add32 (add32 (ws.getD (n - 16) 0) (shaSmallSigma0 (ws.getD (n - 15) 0)))
                      (add32 (ws.getD (n - 7) 0) (shaSmallSigma1 (ws.getD (n - 2) 0)))
      shaSchedExtend fuel (ws ++ [nw])

/-- The message schedule of one 64-byte block. -/
def shaSchedule (block : List Nat) : List Nat :=
  shaSchedExtend 48 ((chunks 4 block).map beVal)

/-- One compression round; the state is the 8-tuple as a list. -/
def shaRound (st : List Nat) (kw : Nat × Nat) : List Nat :=
  match st with
  | [a, b, c, d, e, f, g, h] =>
      let t1 := add32 h (add32 (shaBigSigma1 e) (add32 (shaCh e f g) (add32 kw.1 kw.2)))
      let t2 := add32 (shaBigSigma0 a) (shaMaj a b c)
      [add32 t1 t2, a, b, c, add32 d t1, e, f, g]
  | st => st

/-- Compress one block into the running hash value. -/
def shaCompress (hv : List Nat) (block : List Nat) : List Nat :=
  let st := (shaK.zip (shaSchedule block)).foldl shaRound hv
  List.zipWith add32 hv st

/-- SHA-256 digest (32 bytes) of a byte list. -/
def sha256 (msg : List Nat) : List Nat :=
  (((chunks 64 (shaPad msg)).foldl shaCompress shaH0).map (beBytes 4)).flatten

/-- UTF-8 encoding of one character, as byte values. -/
def utf8Encode (c : Char) : List Nat :=
  let n := c.toNat
  if n < 0x80 then [n]
  else if n < 0x800 then [0xC0 + n / 64, 0x80 + n % 64]
  else if n < 0x10000 then [0xE0 + n / 4096, 0x80 + n / 64 % 64, 0x80 + n % 64]
  else [0xF0 + n / 262144, 0x80 + n / 4096 % 64, 0x80 + n / 64 % 64, 0x80 + n % 64]

/-- UTF-8 bytes of a string (models `str::as_bytes`). -/
def strBytes (s : String) : List Nat :=
  (s.data.map utf8Encode).flatten

/-! ## IdHash (src/idhash/mod.rs) -/

/-- The base-62 digit-to-character mapping of `id_hash`:
`m + 48` for digits, `m + 65 - 10` for `A`-`Z`, `m + 97 - 36` for `a`-`z`. -/
def base62Char (m : Nat) : Char :=
  if m < 10 then Char.ofNat (m + 48)
  else if m < 36 then Char.ofNat (m + 65 - 10)
  else Char.ofNat (m + 97 - 36)

/-- The 20-iteration conversion loop of `id_hash`: push `num % 62`,
divide by 62, repeat. -/
def base62Loop : Nat → Nat → List Char
  | 0, _ => []
  | k + 1, num => base62Char (num % 62) :: base62Loop k (num / 62)

/-- `id_hash` from src/idhash/mod.rs: SHA-256 the UTF-8 bytes, read the
first 16 bytes as a big-endian `u128`, shift right by 9, emit 20 base-62
characters least-significant first. -/
def id_hash (name : String) : String :=
  let hash256 := sha256 (strBytes name)
  let num128 := beVal (hash256.take 16)
  let num128 := num128 >>> 9
  ⟨base62Loop 20 num128⟩

/-- The pipeline as the specification words it: first 16 bytes of the
SHA-256 digest as a big-endian 128-bit integer, the low 9 bits discarded
by division, then the `i`-th output character (least significant first) is
the base-62 digit of `n / 62^i % 62`, mapped 0-9, A-Z, a-z. -/
def idHashSpec (name : String) : String :=
  let n := beVal ((sha256 (strBytes name)).take 16) / 2 ^ 9
  ⟨(List.range 20).map fun i =>
    let m := n / 62 ^ i % 62
    if m < 10 then Char.ofNat (48 + m)
    else if m < 36 then Char.ofNat (65 + (m - 10))
    else Char.ofNat (97 + (m - 36))⟩

/-! ## FilenameParser (src/collection/parsefilename.rs)

The four regular expressions are embedded as explicit matchers.  Each
pattern has the shape `^.*SEP body .*$` with a greedy leading `.*`, so the
regex engine commits to the rightmost position at which the body matches
(backtracking moves the start leftward); inside the bodies every `[0-9]+`
group is followed by a token that cannot match a digit and every optional
single character is followed by a token that cannot match it, so maximal
munch inside the body is exact.  `.` does not match a newline, hence the
prefix and suffix swallowed by the two `.*` must be newline-free. -/

def isSep1 (c : Char) : Bool :=
  c = ' ' ∨ c = '.' ∨ c = '_'

def isSep3 (c : Char) : Bool :=
  c = ' ' ∨ c = '.'

def noNl (l : List Char) : Bool :=
  l.all (· ≠ '\n')

/-- Consume one character of class `p`. -/
def expectChar (p : Char → Bool) : List Char → Option (List Char)
  | c :: rest => if p c then some rest else none
  | [] => none

/-- Consume a maximal nonempty digit run (`[0-9]+`). -/
def expectDigits (l : List Char) : Option (List Char × List Char) :=
  let g := l.takeWhile isDig
  if g = [] then none else some (g, l.dropWhile isDig)

/-- Consume exactly `n` digits (`[0-9]{n}`). -/
def expectDigitsN (n : Nat) (l : List Char) : Option (List Char × List Char) :=
  let g := l.take n
  if g.length = n ∧ g.all isDig then some (g, l.drop n) else none

/-- Consume a `-` if present (`-?` directly before a class excluding `-`). -/
def skipDash : List Char → List Char
  | '-' :: rest => rest
  | l => l

/-- Consume an `x` if present (`x?` directly before a digit class). -/
def skipX : List Char → List Char
  | 'x' :: rest => rest
  | l => l

/-- Body of PAT1 `[ ._][sS]([0-9]+)[eE]([0-9]+)[ ._].*$` at one position. -/
def pat1Body (l : List Char) : Option (List Char × List Char) :=
  (expectChar isSep1 l).bind fun r1 =>
  (expectChar (fun c => c = 's' ∨ c = 'S') r1).bind fun r2 =>
  (expectDigits r2).bind fun p =>
  (expectChar (fun c => c = 'e' ∨ c = 'E') p.2).bind fun r3 =>
  (expectDigits r3).bind fun q =>
  (expectChar isSep1 q.2).bind fun r4 =>
  if noNl r4 then some (p.1, q.1) else none

/-- Body of PAT2 `[ ._][sS]([0-9]+)[eE]([0-9]+)-?[eE]([0-9]+)[ ._].*$`. -/
def pat2Body (l : List Char) : Option (List Char × List Char × List Char) :=
  (expectChar isSep1 l).bind fun r1 =>
  (expectChar (fun c => c = 's' ∨ c = 'S') r1).bind fun r2 =>
  (expectDigits r2).bind fun p =>
  (expectChar (fun c => c = 'e' ∨ c = 'E') p.2).bind fun r3 =>
  (expectDigits r3).bind fun q =>
  (expectChar (fun c => c = 'e' ∨ c = 'E') (skipDash q.2)).bind fun r4 =>
  (expectDigits r4).bind fun u =>
  (expectChar isSep1 u.2).bind fun r5 =>
  if noNl r5 then some (p.1, q.1, u.1) else none

/-- Body of PAT3 `[ .]([0-9]{4})[.-]([0-9]{2})[.-]([0-9]{2})[ .].*$`. -/
def pat3Body (l : List Char) : Option (List Char × List Char × List Char) :=
  (expectChar isSep3 l).bind fun r1 =>
  (expectDigitsN 4 r1).bind fun p =>
  (expectChar (fun c => c = '.' ∨ c = '-') p.2).bind fun r2 =>
  (expectDigitsN 2 r2).bind fun q =>
  (expectChar (fun c => c = '.' ∨ c = '-') q.2).bind fun r3 =>
  (expectDigitsN 2 r3).bind fun u =>
  (expectChar isSep3 u.2).bind fun r4 =>
  if noNl r4 then some (p.1, q.1, u.1) else none

/-- One greedy alternative of PAT4's `([0-9]{1,2})x?([0-9]{2})[ .].*$`
taking `n` leading digits. -/
def pat4Var (n : Nat) (r : List Char) : Option (List Char × List Char) :=
  (expectDigitsN n r).bind fun p =>
  (expectDigitsN 2 (skipX p.2)).bind fun q =>
  (expectChar isSep3 q.2).bind fun r1 =>
  if noNl r1 then some (p.1, q.1) else none

/-- Body of PAT4 `[ .]([0-9]{1,2})x?([0-9]{2})[ .].*$`; the greedy
`{1,2}` prefers two digits. -/
def pat4Body (l : List Char) : Option (List Char × List Char) :=
  (expectChar isSep3 l).bind fun r =>
  pat4Var 2 r <|> pat4Var 1 r

/-- Find the rightmost position at which `body` matches, never skipping a
newline with the leading `.*` (models an anchored `^.*…$` Rust regex). -/
def reFind {α : Type} (body : List Char → Option α) : List Char → Option α
  | [] => body []
  | c :: cs => (if c = '\n' then none else reFind body cs) <|> body (c :: cs)

/-- `parse_episode_name` from src/collection/parsefilename.rs: try the four
patterns in order; inside a matched pattern a failed `i32` parse aborts the
whole function (the Rust `?` operator). -/
def parse_episode_name (filename : String) (season_hint : Int) :
    Option (Int × Int × Bool × String) :=
  let l := filename.data
  match reFind pat1Body l with
  | some (g1, g2) =>
      (parseDigitsI32 g1).bind fun season =>
      (parseDigitsI32 g2).bind fun episode =>
      some (season, episode, false, String.mk g1 ++ "x" ++ String.mk g2)
  | none =>
  match reFind pat2Body l with
  | some (g1, g2, g3) =>
      (parseDigitsI32 g1).bind fun season =>
      (parseDigitsI32 g2).bind fun episode =>
      some (season, episode, true,
        String.mk g1 ++ "x" ++ String.mk g2 ++ "-" ++ String.mk g3)
  | none =>
  match reFind pat3Body l with
  | some (g1, g2, g3) =>
      (parseDigitsI32 (g1 ++ g2 ++ g3)).bind fun episode =>
      some (season_hint, episode, false,
        String.mk g1 ++ "." ++ String.mk g2 ++ "." ++ String.mk g3)
  | none =>
  match reFind pat4Body l with
  | some (g1, g2) =>
      (parseDigitsI32 g1).bind fun season =>
      (parseDigitsI32 g2).bind fun episode =>
      if season_hint < 0 ∨ season_hint = season then
        some (season, episode, false, pad02 season.toNat ++ "x" ++ String.mk g2)
      else none
  | none => none

/-! ## Data model (src/collection/collection.rs, src/collection/item.rs)

Timestamp fields, `Metadata` and subtitle lists are omitted (see the file
header); all other fields are kept with their source names. -/

inductive CollectionType
  | Movies
  | Shows
deriving DecidableEq, Repr

/-- `CollectionType::from_str`. -/
def CollectionType.from_str (s : String) : Option CollectionType :=
  if s = "movies" then some .Movies
  else if s = "shows" then some .Shows
  else none

structure Movie where
  id : String
  name : String
  sort_name : String
  path : String
  base_url : String
  banner : String
  fanart : String
  folder : String
  poster : String
  file_name : String
  file_size : Int
deriving DecidableEq, Repr

structure Episode where
  id : String
  name : String
  path : String
  sort_name : String
  season_no : Int
  episode_no : Int
  double : Bool
  base_name : String
  file_name : String
  file_size : Int
  thumb : String
deriving DecidableEq, Repr

structure Season where
  id : String
  name : String
  path : String
  season_no : Int
  banner : String
  fanart : String
  poster : String
  season_all_banner : String
  season_all_poster : String
  episodes : List Episode
deriving DecidableEq, Repr

structure Show where
  id : String
  name : String
  sort_name : String
  path : String
  base_url : String
  banner : String
  fanart : String
  folder : String
  poster : String
  logo : String
  season_all_banner : String
  season_all_poster : String
  file_name : String
  file_size : Int
  seasons : List Season
deriving DecidableEq, Repr

inductive Item
  | Movie (m : Movie)
  | Show (s : Show)
  | Season (s : Season)
  | Episode (e : Episode)
deriving DecidableEq, Repr

structure Collection where
  id : String
  name : String
  collection_type : CollectionType
  items : List Item
  directory : String
  hls_server : String
deriving DecidableEq, Repr

/-- `Collection::new`: a fresh collection has no items. -/
def Collection.new (id name : String) (collection_type : CollectionType)
    (directory hls_server : String) : Collection :=
  ⟨id, name, collection_type, [], directory, hls_server⟩

/-! ## CollectionRepo queries (src/collection/collectionrepo.rs)

The repository state is the published `Vec<Collection>`; every read
operation takes that list as its first argument (in Rust it is obtained
from one `ArcSwap::load`). -/

/-- `add_collection`: validate the collection type, then append one new
collection (the Rust early `?` return on an unknown type happens before
the store, so the error case publishes nothing). -/
def add_collection (cols : List Collection) (name : String) (id : Option String)
    (collection_type : String) (directory hls_server : String) :
    Except String (List Collection) :=
  match CollectionType.from_str collection_type with
  | none => .error ("Unknown collection type: " ++ collection_type)
  | some ct =>
      let collection_id := id.getD (id_hash name)
      .ok (cols ++ [Collection.new collection_id name ct directory hls_server])

/-- `get_collection`. -/
def get_collection (cols : List Collection) (collection_id : String) :
    Option Collection :=
  cols.find? fun c => c.id = collection_id

/-- The per-item search `get_item` performs on each item of the
collection: match the item's own id, and inside a `Show` whose own id
does not match, search seasons and then their episodes. -/
def item_search (item_id : String) (item : Item) : Option Item :=
  match item with
  | .Movie m => if m.id = item_id then some item else none
  | .Show s =>
      if s.id = item_id then some item
      else
        s.seasons.findSome? fun season =>
          if season.id = item_id then some (Item.Season season)
          else
            season.episodes.findSome? fun e =>
              if e.id = item_id then some (Item.Episode e) else none
  | .Season se => if se.id = item_id then some item else none
  | .Episode e => if e.id = item_id then some item else none

/-- `get_item`: depth-first search of one collection's items. -/
def get_item (cols : List Collection) (collection_id item_id : String) :
    Option Item :=
  (get_collection cols collection_id).bind fun collection =>
  collection.items.findSome? (item_search item_id)

/-- `get_item_by_id`: the same search across all collections (each
collection is re-fetched by id inside `get_item`, as in the source). -/
def get_item_by_id (cols : List Collection) (item_id : String) :
    Option (Collection × Item) :=
  cols.findSome? fun collection =>
    (get_item cols collection.id item_id).map fun item => (collection, item)

/-- `get_episode_by_id`. -/
def get_episode_by_id (cols : List Collection) (episode_id : String) :
    Option (Collection × Show × Season × Episode) :=
  cols.findSome? fun c =>
    c.items.findSome? fun item =>
      match item with
      | .Show sh =>
          sh.seasons.findSome? fun se =>
            se.episodes.findSome? fun ep =>
              if ep.id = episode_id then some (c, sh, se, ep) else none
      | _ => none

/-- Case-insensitive substring test, modelling
`hay.to_lowercase().contains(&term.to_lowercase())`. -/
def containsCI (hay pat : String) : Bool :=
  decide ((pat.data.map lowerChar) <:+: (hay.data.map lowerChar))

/-- `search`: match movie names, show names and the episode names inside
shows (the `Item::Season` / `Item::Episode` arms handle items stored
directly in a collection's item list); note the source does not check the
names of seasons nested inside a show. -/
def search (cols : List Collection) (term : String) : List String :=
  cols.flatMap fun collection =>
    collection.items.flatMap fun item =>
      match item with
      | .Movie m => if containsCI m.name term then [m.id] else []
      | .Show s =>
          (if containsCI s.name term then [s.id] else []) ++
          (s.seasons.flatMap fun season =>
            season.episodes.flatMap fun e =>
              if containsCI e.name term then [e.id] else [])
      | .Season s => if containsCI s.name term then [s.id] else []
      | .Episode e => if containsCI e.name term then [e.id] else []

/-- The search the claim describes, worded from the spec: ids of all
Movies, Shows, Seasons and Episodes at every nesting level whose display
name contains the term case-insensitively. -/
def searchSpec (cols : List Collection) (term : String) : List String :=
  cols.flatMap fun collection =>
    collection.items.flatMap fun item =>
      match item with
      | .Movie m => if containsCI m.name term then [m.id] else []
      | .Show s =>
          (if containsCI s.name term then [s.id] else []) ++
          (s.seasons.flatMap fun season =>
            (if containsCI season.name term then [season.id] else []) ++
            season.episodes.flatMap fun e =>
              if containsCI e.name term then [e.id] else [])
      | .Season s => if containsCI s.name term then [s.id] else []
      | .Episode e => if containsCI e.name term then [e.id] else []

/-- Concrete catalog for the C8 counterexample: one show whose only
season is named "Casablanca Returns Specials". -/
def cexSeason : Season :=
  ⟨"sid", "Casablanca Returns Specials", "zeta", 1, "", "", "", "", "", []⟩

def cexShow : Show :=
  ⟨"shid", "Zeta", "zeta", "zeta", "", "", "", "", "", "", "", "", "", 0,
   [cexSeason]⟩

def cexCollection : Collection :=
  ⟨"cid", "TV", .Shows, [Item.Show cexShow], "/tv", ""⟩

/-! ## Display-name normalization (src/collection/item.rs) -/

/-- ASCII punctuation, modelling `char::is_ascii_punctuation`. -/
def isAsciiPunct (c : Char) : Bool :=
  (33 ≤ c.toNat ∧ c.toNat ≤ 47) ∨ (58 ≤ c.toNat ∧ c.toNat ≤ 64) ∨
  (91 ≤ c.toNat ∧ c.toNat ≤ 96) ∨ (123 ≤ c.toNat ∧ c.toNat ≤ 126)

/-- Strip one leading article (`the `, `a `, `an `), first match only,
then re-trim — the loop body of `make_sort_name`. -/
def stripArticle (l : List Char) : List Char :=
  if "the ".data.isPrefixOf l then trimL (l.drop 4)
  else if "a ".data.isPrefixOf l then trimL (l.drop 2)
  else if "an ".data.isPrefixOf l then trimL (l.drop 3)
  else l

/-- Does the year-suffix regex `\s*\(\d{4}\)\s*$` match starting exactly
at this position? -/
def yearSuffixAt (l : List Char) : Bool :=
  match l.dropWhile isWs with
  | '(' :: r1 =>
      decide ((r1.take 4).length = 4) && (r1.take 4).all isDig &&
      (match r1.drop 4 with
       | ')' :: r2 => decide (r2.dropWhile isWs = [])
       | _ => false)
  | _ => false

/-- The characters before the leftmost match of the year-suffix regex
(`Regex::find` returns the leftmost match), or `none` when it never
matches. -/
def ryAux : List Char → Option (List Char)
  | [] => none
  | c :: cs =>
      if yearSuffixAt (c :: cs) then some []
      else (ryAux cs).map fun p => c :: p

/-- `remove_year_suffix`. -/
def remove_year_suffix (name : List Char) : List Char :=
  match ryAux name with
  | some pre => trimL pre
  | none => name

/-- `make_sort_name`: lowercase, trim, strip one leading article, strip
leading whitespace/punctuation, remove a trailing `(YYYY)` year. -/
def make_sort_name (name : String) : String :=
  let title := trimL (lowerStr name).data
  let title := stripArticle title
  let title := title.dropWhile fun c => isWs c ∨ isAsciiPunct c
  ⟨remove_year_suffix title⟩

/-! ## Filesystem model and DirectoryScanner (src/collection/kodifs.rs)

Both scans read at most three directory levels below a collection root:
`build_movies` walks directories to depth 2 and reads the files of each,
`build_shows` reads shows (depth 1), season directories (depth 2) and
their video files.  A directory is modelled with its name, its plain
files in `read_dir` order, and its subdirectories in that same order
(WalkDir yields entries in directory order, depth-first, parents first;
entries that are files are skipped by the `is_dir` checks, so only the
relative order of directories and of files matters).  `std::fs::metadata`
and UTF-8 conversions of names are modelled as always succeeding. -/

structure FsFile where
  name : String
  size : Int
deriving DecidableEq, Repr

structure FsDir2 where
  name : String
  files : List FsFile
deriving DecidableEq, Repr

structure FsDir1 where
  name : String
  files : List FsFile
  dirs : List FsDir2
deriving DecidableEq, Repr

structure FsDir0 where
  name : String
  files : List FsFile
  dirs : List FsDir1
deriving DecidableEq, Repr

/-- Insert `a` before the first element not below it; on ties `a` stays
first, matching its position left of the tail in the stable scheme. -/
def insertSorted {α : Type} (le : α → α → Bool) (a : α) : List α → List α
  | [] => [a]
  | b :: l => if le a b then a :: b :: l else b :: insertSorted le a l

/-- Models `Vec::sort_by_key` (a stable sort — its output is uniquely
determined by being sorted and stable, so any stable sort is the same
function); implemented as insertion sort so that it reduces inside the
kernel. -/
def stableSortByKey {α : Type} (le : α → α → Bool) (l : List α) : List α :=
  l.foldr (insertSorted le) []

/-- Rust `Path::extension`: the part after the last `.`, none when there
is no `.` or when the only `.` is the leading character. -/
def fileExt (name : String) : Option String :=
  let cs := name.data
  let revExt := cs.reverse.takeWhile fun c => c ≠ '.'
  if revExt.length = cs.length then none
  else if revExt.length + 1 = cs.length then none
  else some ⟨revExt.reverse⟩

/-- `is_video_file`. -/
def is_video_file (name : String) : Bool :=
  match fileExt name with
  | some ext =>
      let e := lowerStr ext
      e = "mkv" ∨ e = "mp4" ∨ e = "avi" ∨ e = "m4v" ∨
      e = "mov" ∨ e = "wmv" ∨ e = "flv" ∨ e = "webm"
  | none => false

/-- `find_video_file`: first file in `read_dir` order with a video
extension. -/
def find_video_file (files : List FsFile) : Option FsFile :=
  files.find? fun f => is_video_file f.name

/-- `find_image`: probe `name.jpg`, `name.jpeg`, `name.png`, `name.webp`
in order against the directory contents and return the first existing
file name, or "". -/
def find_image (files : List FsFile) (name : String) : String :=
  if files.any fun f => f.name = name ++ ".jpg" then name ++ ".jpg"
  else if files.any fun f => f.name = name ++ ".jpeg" then name ++ ".jpeg"
  else if files.any fun f => f.name = name ++ ".png" then name ++ ".png"
  else if files.any fun f => f.name = name ++ ".webp" then name ++ ".webp"
  else ""

/-- Strip a (nonempty) prefix repeatedly, fuel-driven:
`str::trim_start_matches(&str)`. -/
def stripAllPrefixAux (p : List Char) : Nat → List Char → List Char
  | 0, l => l
  | fuel + 1, l =>
      if p.isPrefixOf l then stripAllPrefixAux p fuel (l.drop p.length) else l

def stripAllPrefix (p l : List Char) : List Char :=
  stripAllPrefixAux p (l.length + 1) l

/-- `parse_season_number`: "Season NN" (any number of `season` prefixes
stripped, as `trim_start_matches` does) or "SNN"; the i32 parse may see a
sign, as Rust's does. -/
def parse_season_number (name : String) : Option Int :=
  let name_lower := (lowerStr name).data
  if "season".data.isPrefixOf name_lower then
    parseI32Str (trimL (stripAllPrefix "season".data name_lower))
  else if ['s'].isPrefixOf name_lower then
    parseI32Str (trimL (name_lower.dropWhile fun c => c = 's'))
  else none

/-- i32 `Display`. -/
def intToStr (n : Int) : String :=
  if n < 0 then "-" ++ natToStr (-n).toNat else natToStr n.toNat

/-- The format specifier `{:02}` on an i32 (a sign counts toward the
width). -/
def pad02i (n : Int) : String :=
  if n < 0 then "-" ++ natToStr (-n).toNat else pad02 n.toNat

/-- One directory enumerated by the movies WalkDir: its `file_name`, the
path relative to the collection root ("" for the root itself), and its
plain files. -/
structure WalkEntry where
  name : String
  rel : String
  files : List FsFile
deriving DecidableEq, Repr

/-- A depth-1 directory and its depth-2 subdirectories, in walk order. -/
def walkDir1 (d1 : FsDir1) : List WalkEntry :=
  ⟨d1.name, d1.name, d1.files⟩ ::
  d1.dirs.map fun d2 => ⟨d2.name, d1.name ++ "/" ++ d2.name, d2.files⟩

/-- The directories yielded by `WalkDir::new(root).max_depth(2)` in
depth-first order: the root itself, then each depth-1 directory followed
by its depth-2 subdirectories. -/
def walkMovieDirs (t : FsDir0) : List WalkEntry :=
  ⟨t.name, "", t.files⟩ :: t.dirs.flatMap walkDir1

/-- `scan_movie_directory`: `None` exactly when the directory holds no
recognized video file; otherwise one Movie taking the first video file. -/
def scan_movie_directory (e : WalkEntry) : Option Movie :=
  (find_video_file e.files).map fun vf =>
    { id := id_hash e.name
      name := e.name
      sort_name := make_sort_name e.name
      path := e.rel
      base_url := ""
      banner := find_image e.files "banner"
      fanart := find_image e.files "fanart"
      folder := find_image e.files "folder"
      poster := find_image e.files "poster"
      file_name := vf.name
      file_size := vf.size }

/-- `build_movies` (the new `collection.items`). -/
def build_movies (t : FsDir0) : List Item :=
  (walkMovieDirs t).filterMap fun e => (scan_movie_directory e).map Item.Movie

/-- `scan_season_directory`: keep the video files whose parsed season
equals the folder's season number, then sort by episode number. -/
def scan_season_directory (files : List FsFile) (show_path : String)
    (season_no : Int) : Season :=
  let episodes := files.filterMap fun f =>
    if is_video_file f.name then
      match parse_episode_name f.name season_no with
      | some (parsed_season, episode_no, is_double, ep_name) =>
          if parsed_season = season_no then
            some { id := id_hash (show_path ++ "-s" ++ intToStr parsed_season ++
                     "e" ++ intToStr episode_no)
                   name := ep_name
                   path := show_path
                   sort_name := ep_name
                   season_no := parsed_season
                   episode_no := episode_no
                   double := is_double
                   base_name := f.name
                   file_name := "Season " ++ pad02i season_no ++ "/" ++ f.name
                   file_size := f.size
                   thumb := "" }
          else none
      | none => none
    else none
  { id := id_hash (show_path ++ "-" ++ intToStr season_no)
    name := "Season " ++ intToStr season_no
    path := show_path
    season_no := season_no
    banner := ""
    fanart := ""
    poster := find_image files ("season" ++ pad02i season_no ++ "-poster")
    season_all_banner := ""
    season_all_poster := ""
    episodes := stableSortByKey (fun a b => decide (a.episode_no ≤ b.episode_no)) episodes }

/-- `scan_show_directory`: subdirectories whose name parses as a season
are scanned, then the seasons are sorted by season number. -/
def scan_show_directory (d : FsDir1) : Show :=
  let relative_path := d.name
  let seasons := d.dirs.filterMap fun sd =>
    match parse_season_number sd.name with
    | some season_no => some (scan_season_directory sd.files relative_path season_no)
    | none => none
  { id := id_hash d.name
    name := d.name
    sort_name := make_sort_name d.name
    path := relative_path
    base_url := ""
    banner := find_image d.files "banner"
    fanart := find_image d.files "fanart"
    folder := find_image d.files "folder"
    poster := find_image d.files "poster"
    logo := find_image d.files "logo"
    season_all_banner := find_image d.files "season-all-banner"
    season_all_poster := find_image d.files "season-all-poster"
    file_name := ""
    file_size := 0
    seasons := stableSortByKey (fun a b => decide (a.season_no ≤ b.season_no)) seasons }

/-- `build_shows` (the WalkDir at depth 1 yields the root, skipped
explicitly, then each show directory). -/
def build_shows (t : FsDir0) : List Item :=
  t.dirs.map fun d => Item.Show (scan_show_directory d)

/-- `update_collections` rebuilds each collection from the filesystem
(`env` maps a collection's directory to its current tree) and publishes
the result. -/
def rebuildCollection (env : String → FsDir0) (c : Collection) : Collection :=
  match c.collection_type with
  | .Movies => { c with items := build_movies (env c.directory) }
  | .Shows => { c with items := build_shows (env c.directory) }

def update_collections (env : String → FsDir0) (cols : List Collection) :
    List Collection :=
  cols.map (rebuildCollection env)

/-- C9 counterexample tree: a collection root that itself contains a
video file and has no subdirectories at all. -/
def cexMovieRoot : FsDir0 :=
  ⟨"movies", [⟨"m.mkv", 5⟩], []⟩

/-- The catalogs the repository can publish: the empty initial list,
successful `add_collection` results, and `update_collections` rebuilds
against an arbitrary filesystem state. -/
inductive Reachable : List Collection → Prop
  | nil : Reachable []
  | add (cols : List Collection) (name : String) (id : Option String)
      (collection_type directory hls : String) (cols' : List Collection) :
      Reachable cols →
      add_collection cols name id collection_type directory hls = .ok cols' →
      Reachable cols'
  | update (cols : List Collection) (env : String → FsDir0) :
      Reachable cols → Reachable (update_collections env cols)

/-- The well-formedness the claim states: seasons sorted ascending by
season number, episodes sorted ascending by episode number, and every
episode's season number equal to its parent season's. -/
def WellFormedShow (s : Show) : Prop :=
  List.Pairwise (fun a b : Season => a.season_no ≤ b.season_no) s.seasons ∧
  ∀ se ∈ s.seasons,
    List.Pairwise (fun a b : Episode => a.episode_no ≤ b.episode_no) se.episodes ∧
    ∀ e ∈ se.episodes, e.season_no = se.season_no

/-- Shows catalog for the C3 witness: two unsorted season folders with
unsorted episode files. -/
def cexShowsTree : FsDir0 :=
  ⟨"tv", [],
   [⟨"MyShow", [],
     [⟨"Season 2", [⟨"a.s02e01.mkv", 1⟩]⟩,
      ⟨"Season 1", [⟨"b.s01e02.mkv", 2⟩, ⟨"b.s01e01.mkv", 3⟩]⟩]⟩]⟩

/-! ## Snapshot-swap concurrency model (src/collection/collectionrepo.rs)

`CollectionRepo.collections` is an `ArcSwap<Vec<Collection>>`.  A reader
performs `load()` — an atomic acquisition of the currently published
snapshot reference — and then computes over that immutable value (the
read operations above take the loaded list as their argument; `next_up`
performs several loads, each of which is one `acquire` here).
`update_collections` clones the published list (`load`), rebuilds each
collection on that private copy (`scanOne`, one collection at a time;
clones are deep, so the published snapshot is never touched), and
publishes the fully rebuilt list in one atomic `store` (`publish`).  The
model interleaves one rebuild with arbitrarily many reader acquisitions,
which is the single-writer scenario the claim quantifies over. -/

inductive UpdPhase
  | idle
  | loaded (pending : List Collection) (done : List Collection)
  | finished
deriving DecidableEq

structure SysState where
  published : List Collection
  phase : UpdPhase
  readers : List (List Collection)
deriving DecidableEq

inductive Step (env : String → FsDir0) : SysState → SysState → Prop
  | load (p : List Collection) (rs : List (List Collection)) :
      Step env ⟨p, .idle, rs⟩ ⟨p, .loaded p [], rs⟩
  | scanOne (p : List Collection) (c : Collection)
      (pending done : List Collection) (rs : List (List Collection)) :
      Step env ⟨p, .loaded (c :: pending) done, rs⟩
        ⟨p, .loaded pending (done ++ [rebuildCollection env c]), rs⟩
  | publish (p done : List Collection) (rs : List (List Collection)) :
      Step env ⟨p, .loaded [] done, rs⟩ ⟨done, .finished, rs⟩
  | acquire (p : List Collection) (ph : UpdPhase) (rs : List (List Collection)) :
      Step env ⟨p, ph, rs⟩ ⟨p, ph, p :: rs⟩

def Steps (env : String → FsDir0) : SysState → SysState → Prop :=
  Relation.ReflTransGen (Step env)

/-- Inductive invariant of the rebuild: before the publish the published
snapshot and every acquired reference are the complete pre-rebuild
catalog and the private copy rebuilt so far completes to the full
post-rebuild catalog; after it the published snapshot is the complete
post-rebuild catalog. -/
def C1Inv (env : String → FsDir0) (pre : List Collection) (s : SysState) : Prop :=
  match s.phase with
  | .idle => s.published = pre ∧ ∀ r ∈ s.readers, r = pre
  | .loaded pending done =>
      s.published = pre ∧ (∀ r ∈ s.readers, r = pre) ∧
      done ++ pending.map (rebuildCollection env) = update_collections env pre
  | .finished =>
      s.published = update_collections env pre ∧
      ∀ r ∈ s.readers, r = pre ∨ r = update_collections env pre

/-- Concrete instances for the C1 witness trace. -/
def cexEnv : String → FsDir0 := fun _ => cexShowsTree

def cexC0 : Collection := Collection.new "cid" "TV" .Shows "/tv" ""

def cexPre : List Collection := [cexC0]

def cexFinal : SysState :=
  ⟨[rebuildCollection cexEnv cexC0], .finished,
   [[rebuildCollection cexEnv cexC0], cexPre]⟩

/-! ## Enumeration-order equivalence of directory trees (claim C2)

Two trees are equivalent when they hold the same directories and files
but enumerate the entries of each directory in possibly different orders:
the file lists are permutations and the subdirectory lists are
permutations of pointwise-equivalent directories. -/

def EntryEquiv (a b : WalkEntry) : Prop :=
  a.name = b.name ∧ a.rel = b.rel ∧ a.files.Perm b.files

def Dir2Equiv (a b : FsDir2) : Prop :=
  a.name = b.name ∧ a.files.Perm b.files

def Dir1Equiv (a b : FsDir1) : Prop :=
  a.name = b.name ∧ a.files.Perm b.files ∧
  ∃ l, a.dirs.Perm l ∧ List.Forall₂ Dir2Equiv l b.dirs

def Dir0Equiv (a b : FsDir0) : Prop :=
  a.name = b.name ∧ a.files.Perm b.files ∧
  ∃ l, a.dirs.Perm l ∧ List.Forall₂ Dir1Equiv l b.dirs

/-- Within each show the parsed season numbers of its season folders are
distinct. -/
def showSeasonKeysNodup (t : FsDir0) : Prop :=
  ∀ d ∈ t.dirs, (d.dirs.filterMap fun sd => parse_season_number sd.name).Nodup

/-- Within each season folder the kept parsed episode numbers are
distinct. -/
def showEpisodeKeysNodup (t : FsDir0) : Prop :=
  ∀ d ∈ t.dirs, ∀ sd ∈ d.dirs, ∀ n ∈ parse_season_number sd.name,
    ((scan_season_directory sd.files d.name n).episodes.map fun e => e.episode_no).Nodup

/-- `Item::id`. -/
def Item.id : Item → String
  | .Movie m => m.id
  | .Show s => s.id
  | .Season s => s.id
  | .Episode e => e.id

/-- The id a walked directory contributes to the movies scan, if any. -/
def walkEntryIdOpt (e : WalkEntry) : Option String :=
  (scan_movie_directory e).map fun m => m.id

/-- Second tree for the C2 witness: `cexShowsTree` with every directory
and file list enumerated in the opposite order. -/
def cexShowsTreeRev : FsDir0 :=
  ⟨"tv", [],
   [⟨"MyShow", [],
     [⟨"Season 1", [⟨"b.s01e01.mkv", 3⟩, ⟨"b.s01e02.mkv", 2⟩]⟩,
      ⟨"Season 2", [⟨"a.s02e01.mkv", 1⟩]⟩]⟩]⟩

/-- Movie trees for the C2 witness, enumerated in opposite orders. -/
def cexMoviesTree : FsDir0 :=
  ⟨"movies", [],
   [⟨"Alpha", [⟨"x.srt", 1⟩, ⟨"a.mkv", 2⟩], [⟨"Extras", [⟨"e.mp4", 3⟩]⟩]⟩,
    ⟨"Beta", [], []⟩]⟩

def cexMoviesTreeRev : FsDir0 :=
  ⟨"movies", [],
   [⟨"Beta", [], []⟩,
    ⟨"Alpha", [⟨"a.mkv", 2⟩, ⟨"x.srt", 1⟩], [⟨"Extras", [⟨"e.mp4", 3⟩]⟩]⟩]⟩

/-! ## next_up (src/collection/collectionrepo.rs lines 197-266)

The `HashMap<String, ShowEntry>` keyed by show id is modelled as an
association list in insertion order (the iteration order of the Rust
`HashMap` is unspecified; the model fixes insertion order). -/

/-- The `ShowEntry` record `next_up` keeps per show in its `show_map`. -/
structure ShowEntry where
  show_id : String
  season_no : Int
  episode_no : Int
  season_idx : Nat
  ep_idx : Nat
deriving DecidableEq, Repr

/-- The map-entry update condition of `next_up`: the new
`(season_no, episode_no)` pair `q` is lexicographically strictly greater
than the stored pair `p` (`season.season_no > entry.season_no ||
(== && episode.episode_no > entry.episode_no)`). -/
def lexAfter (p q : Int × Int) : Bool :=
  decide (q.1 > p.1 ∨ (q.1 = p.1 ∧ q.2 > p.2))

/-- One watched episode id, fully resolved as in the first loop of
`next_up`: the show the episode belongs to, the season and episode
numbers, and the positional indices of the season inside the show and of
the episode inside that season. -/
structure RWatched where
  sh : Show
  season_no : Int
  episode_no : Int
  season_idx : Nat
  ep_idx : Nat
deriving DecidableEq, Repr

def pairOf (w : RWatched) : Int × Int := (w.season_no, w.episode_no)

/-- The `ShowEntry` built from a resolved watched episode (`or_insert`'s
argument, or the updated field values). -/
def entryOf (w : RWatched) : ShowEntry :=
  ⟨w.sh.id, w.season_no, w.episode_no, w.season_idx, w.ep_idx⟩

/-- Resolution of one watched episode id: look the episode up with
`get_episode_by_id`, skip collections that are not of type `Shows`, and
find the indices of the episode's season inside the show and of the
episode inside that season (first match and `break`, as in the source's
index-finding loops; both must be found). -/
def resolveEpisode (cols : List Collection) (episode_id : String) :
    Option RWatched :=
  match get_episode_by_id cols episode_id with
  | some (collection, sh, season, episode) =>
      if collection.collection_type = CollectionType.Shows then
        match sh.seasons.findIdx? (fun s => s.id = season.id),
          (sh.seasons.find? fun s => s.id = season.id).bind
            (fun s => s.episodes.findIdx? fun e => e.id = episode.id) with
        | some si, some ei =>
            some ⟨sh, season.season_no, episode.episode_no, si, ei⟩
        | _, _ => none
      else none
  | none => none

/-- `show_map.entry(show_id).or_insert(new_entry)` followed by the
conditional lexicographic update, on the association-list map. -/
def updateShowMap : List ShowEntry → String → Int → Int → Nat → Nat →
    List ShowEntry
  | [], sid, sno, eno, si, ei => [⟨sid, sno, eno, si, ei⟩]
  | en :: rest, sid, sno, eno, si, ei =>
      if en.show_id = sid then
        (if lexAfter (en.season_no, en.episode_no) (sno, eno) then
          (⟨sid, sno, eno, si, ei⟩ : ShowEntry)
        else en) :: rest
      else en :: updateShowMap rest sid sno eno si ei

/-- Folding one resolved watched episode into the show map. -/
def nextUpStep (acc : List ShowEntry) (w : RWatched) : List ShowEntry :=
  updateShowMap acc w.sh.id w.season_no w.episode_no w.season_idx w.ep_idx

/-- The continuation lookup in the output loop of `next_up`: in the
re-fetched show, the episode after `ep_idx` within season `season_idx`
if any, else the first episode of season `season_idx + 1` provided that
season exists and is non-empty (the source's bounds checks followed by
indexing are the `Option`-valued lookups here). -/
def continuationOf (sh : Show) (season_idx ep_idx : Nat) : Option String :=
  match sh.seasons[season_idx]? with
  | some season =>
      match season.episodes[ep_idx + 1]? with
      | some e => some e.id
      | none =>
          match sh.seasons[season_idx + 1]? with
          | some s2 =>
              match s2.episodes[0]? with
              | some e0 => some e0.id
              | none => none
          | none => none
  | none => none

/-- The output step of `next_up` for one map entry: re-fetch the show by
id with `get_item_by_id` and emit the continuation episode's id. -/
def nextUpEmit (cols : List Collection) (entry : ShowEntry) : Option String :=
  match get_item_by_id cols entry.show_id with
  | some (_, .Show sh) => continuationOf sh entry.season_idx entry.ep_idx
  | _ => none

/-- `next_up`: fold the watched episode ids into the per-show map, then
emit the continuation of each entry's show. -/
def next_up (cols : List Collection) (watched_episode_ids : List String) :
    List String :=
  (watched_episode_ids.foldl (fun acc episode_id =>
      (resolveEpisode cols episode_id).elim acc (nextUpStep acc)) []).filterMap
    (nextUpEmit cols)

/-- The watched episode ids that resolve, in input order. -/
def resolveWatched (cols : List Collection) (ids : List String) :
    List RWatched :=
  ids.filterMap (resolveEpisode cols)

/-- Each string of the input once, in order of first appearance. -/
def firstOccur : List String → List String
  | [] => []
  | x :: xs => x :: (firstOccur xs).filter (fun y => y ≠ x)

/-- The specified per-show selection: the first entry of the group of
resolved watched episodes whose `(season_no, episode_no)` pair no entry
of the group strictly exceeds lexicographically — i.e. the lexicographic
maximum pair, earliest entry among ties. -/
def specBest (g : List RWatched) : Option RWatched :=
  g.find? fun w => g.all fun x => ! lexAfter (pairOf w) (pairOf x)

/-- `next_up` as the claim words it: for each show with at least one
resolved watched episode (at most one output per show), take the
lexicographically greatest watched `(season_no, episode_no)` pair and
emit the episode immediately following that episode's positional index
within the same season, or, when it was the last episode of its season,
the first episode of the next season provided that season is non-empty;
a show whose maximum watched episode has no continuation contributes
nothing. -/
def specNextUp (cols : List Collection) (ids : List String) : List String :=
  (firstOccur ((resolveWatched cols ids).map fun w => w.sh.id)).filterMap
    fun sid =>
      (specBest ((resolveWatched cols ids).filter fun w => w.sh.id = sid)).bind
        fun best => continuationOf best.sh best.season_idx best.ep_idx

/-- The show map built by the first loop of `next_up`. -/
def buildMap (r : List RWatched) : List ShowEntry :=
  r.foldl nextUpStep []

/-- The show map as specified: one entry per show id in first-watch
order, holding the selected (lexicographically maximal) watched
episode. -/
def nuSlot (r : List RWatched) (sid : String) : Option ShowEntry :=
  (specBest (r.filter fun w => w.sh.id = sid)).map entryOf

def specMap (r : List RWatched) : List ShowEntry :=
  (firstOccur (r.map fun w => w.sh.id)).filterMap (nuSlot r)

/-- All item-level ids occurring in one item, in search order. -/
def itemIds : Item → List String
  | .Movie m => [m.id]
  | .Show s => s.id :: (s.seasons.flatMap fun se =>
      se.id :: se.episodes.map fun e => e.id)
  | .Season se => se.id :: se.episodes.map fun e => e.id
  | .Episode e => [e.id]

def collectionItemIds (c : Collection) : List String :=
  c.items.flatMap itemIds

def allItemIds (cols : List Collection) : List String :=
  cols.flatMap collectionItemIds

/-- Well-formedness for C7: distinct collection ids and globally
distinct item ids (movies, shows, seasons, episodes). -/
def NextUpWF (cols : List Collection) : Prop :=
  ((cols.map fun c => c.id).Nodup) ∧ (allItemIds cols).Nodup

/-- Example catalog for C7's concrete cases: one show with episode lists
`[[e11, e12], [e21]]`. -/
def nuE11 : Episode := ⟨"e11", "Ep 1", "", "", 1, 1, false, "", "", 0, ""⟩

def nuE12 : Episode := ⟨"e12", "Ep 2", "", "", 1, 2, false, "", "", 0, ""⟩

def nuE21 : Episode := ⟨"e21", "Ep 1", "", "", 2, 1, false, "", "", 0, ""⟩

def nuS1 : Season :=
  ⟨"se1", "Season 1", "", 1, "", "", "", "", "", [nuE11, nuE12]⟩

def nuS2 : Season :=
  ⟨"se2", "Season 2", "", 2, "", "", "", "", "", [nuE21]⟩

def nuShow : Show :=
  ⟨"sh1", "MyShow", "", "", "", "", "", "", "", "", "", "", "", 0,
   [nuS1, nuS2]⟩

def nuCatalog : List Collection :=
  [⟨"c1", "TV", .Shows, [Item.Show nuShow], "/tv", ""⟩]

/-! ## Theorems -/

/-- Sanity anchor: the SHA-256 embedding reproduces the FIPS 180-4 test
vector for "abc". -/
theorem sha256_abc :
    sha256 (strBytes "abc") =
      [0xba, 0x78, 0x16, 0xbf, 0x8f, 0x01, 0xcf, 0xea, 0x41, 0x41, 0x40, 0xde,
       0x5d, 0xae, 0x22, 0x23, 0xb0, 0x03, 0x61, 0xa3, 0x96, 0x17, 0x7a, 0x9c,
       0xb4, 0x10, 0xff, 0x61, 0xf2, 0x00, 0x15, 0xad] := by
  decide

theorem base62Char_eq_specChar (m : Nat) :
    base62Char m =
      (if m < 10 then Char.ofNat (48 + m)
       else if m < 36 then Char.ofNat (65 + (m - 10))
       else Char.ofNat (97 + (m - 36))) := by
  unfold base62Char
  split
  · congr 1; omega
  · split
    · congr 1; omega
    · congr 1; omega

theorem base62Loop_eq_map (k : Nat) :
    ∀ n : Nat, base62Loop k n = (List.range k).map fun i => base62Char (n / 62 ^ i % 62) := by
  induction k with
  | zero => intro n; rfl
  | succ k ih =>
      intro n
      rw [List.range_succ_eq_map, List.map_cons, List.map_map]
      show base62Char (n % 62) :: base62Loop k (n / 62) = _
      rw [ih (n / 62)]
      congr 1
      · congr 1; simp [Nat.pow_zero]
      · apply List.map_congr_left
        intro i _
        congr 2
        rw [Nat.div_div_eq_div_mul]
        congr 1
        rw [pow_succ]
        ring

theorem base62Char_isAlphanum : ∀ m, m < 62 → (base62Char m).isAlphanum = true := by
  decide

theorem base62Loop_length (k : Nat) : ∀ n, (base62Loop k n).length = k := by
  induction k with
  | zero => intro n; rfl
  | succ k ih => intro n; simp [base62Loop, ih]

/-- C4: for every input string, `id_hash` returns exactly the 20-character
string obtained by taking SHA-256 of the UTF-8 bytes, reading the first 16
bytes as a big-endian 128-bit integer, shifting right by 9 bits, and
emitting 20 base-62 digits least-significant first with digits mapped to
`0`-`9`, `A`-`Z`, `a`-`z`; the output is always 20 alphanumeric characters
and equal inputs give equal outputs. -/
theorem C4_id_hash_pipeline (s : String) :
    id_hash s = idHashSpec s ∧
    (id_hash s).length = 20 ∧
    (∀ c ∈ (id_hash s).data, c.isAlphanum = true) ∧
    (∀ t : String, s = t → id_hash s = id_hash t) := by
  refine ⟨?_, ?_, ?_, ?_⟩
  · show id_hash s = idHashSpec s
    unfold id_hash idHashSpec
    simp only [Nat.shiftRight_eq_div_pow, base62Loop_eq_map]
    congr 1
    apply List.map_congr_left
    intro i _
    rw [base62Char_eq_specChar]
  · show (id_hash s).length = 20
    unfold id_hash
    show (⟨base62Loop 20 _⟩ : String).length = 20
    rw [String.length]
    simp [base62Loop_length]
  · intro c hc
    unfold id_hash at hc
    simp only [base62Loop_eq_map, List.mem_map, List.mem_range] at hc
    obtain ⟨i, _, rfl⟩ := hc
    exact base62Char_isAlphanum _ (Nat.mod_lt _ (by omega))
  · intro t h; rw [h]

/-- Witness for C4 at a concrete input. -/
theorem C4_id_hash_pipeline_witness :
    id_hash "abc" = idHashSpec "abc" ∧ (id_hash "abc").length = 20 :=
  ⟨(C4_id_hash_pipeline "abc").1, (C4_id_hash_pipeline "abc").2.1⟩

/-- A successful `reFind` comes from a successful body match at some
position. -/
theorem reFind_eq_some {α : Type} {body : List Char → Option α} {x : α} :
    ∀ {l : List Char}, reFind body l = some x → ∃ l', body l' = some x := by
  intro l
  induction l with
  | nil => intro h; exact ⟨[], h⟩
  | cons c cs ih =>
      intro h
      unfold reFind at h
      rcases (Option.orElse_eq_some _ _ _).mp h with h1 | ⟨-, h2⟩
      · split at h1
        · exact absurd h1 (by simp)
        · exact ih h1
      · exact ⟨c :: cs, h2⟩

theorem expectDigitsN_eq_some {n : Nat} {l : List Char} {p : List Char × List Char}
    (h : expectDigitsN n l = some p) :
    p.1.length = n ∧ p.1.all isDig = true := by
  simp only [expectDigitsN] at h
  split at h
  · rcases h with ⟨⟩
    tauto
  · exact absurd h (by simp)

theorem expectDigits_eq_some {l : List Char} {p : List Char × List Char}
    (h : expectDigits l = some p) : p.1 ≠ [] ∧ p.1.all isDig = true := by
  simp only [expectDigits] at h
  split at h
  · exact absurd h (by simp)
  · rcases h with ⟨⟩
    refine ⟨by assumption, ?_⟩
    simp only [List.all_eq_true]
    intro c hc
    exact List.mem_takeWhile_imp hc

theorem pat4Var_shape {n : Nat} {r g1 g2 : List Char}
    (h : pat4Var n r = some (g1, g2)) :
    g1.length = n ∧ g1.all isDig = true ∧ g2.length = 2 ∧ g2.all isDig = true := by
  simp only [pat4Var, Option.bind_eq_some] at h
  obtain ⟨p, hp, q, hq, r1, hr1, hif⟩ := h
  have hg : g1 = p.1 ∧ g2 = q.1 := by
    split at hif
    · rcases hif with ⟨⟩
      exact ⟨rfl, rfl⟩
    · exact absurd hif (by simp)
  obtain ⟨h1, h2⟩ := expectDigitsN_eq_some hp
  obtain ⟨h3, h4⟩ := expectDigitsN_eq_some hq
  rw [hg.1, hg.2]
  exact ⟨h1, h2, h3, h4⟩

theorem pat4Body_shape {l g1 g2 : List Char}
    (h : pat4Body l = some (g1, g2)) :
    g1 ≠ [] ∧ g1.length ≤ 2 ∧ g1.all isDig = true ∧
    g2.length = 2 ∧ g2.all isDig = true := by
  simp only [pat4Body, Option.bind_eq_some] at h
  obtain ⟨r, -, h⟩ := h
  rcases (Option.orElse_eq_some _ _ _).mp h with h2 | ⟨-, h2⟩ <;>
    obtain ⟨h1, h2', h3, h4⟩ := pat4Var_shape h2 <;>
    refine ⟨?_, by omega, h2', h3, h4⟩ <;>
    · intro he
      rw [he] at h1
      simp at h1

theorem pat2Body_shape {l g1 g2 g3 : List Char}
    (h : pat2Body l = some (g1, g2, g3)) : g1 ≠ [] ∧ g2 ≠ [] := by
  simp only [pat2Body, Option.bind_eq_some] at h
  obtain ⟨r1, -, r2, -, p, hp, r3, -, q, hq, r4, -, u, -, r5, -, hif⟩ := h
  have hg : g1 = p.1 ∧ g2 = q.1 := by
    split at hif
    · rcases hif with ⟨⟩
      exact ⟨rfl, rfl⟩
    · exact absurd hif (by simp)
  rw [hg.1, hg.2]
  exact ⟨(expectDigits_eq_some hp).1, (expectDigits_eq_some hq).1⟩

theorem digitsVal_foldl_lt (l : List Char) (hl : l.all isDig = true) :
    ∀ a : Nat, l.foldl (fun a c => a * 10 + (c.toNat - 48)) a < (a + 1) * 10 ^ l.length := by
  induction l with
  | nil =>
      intro a
      simp only [List.foldl_nil, List.length_nil, pow_zero, mul_one]
      omega
  | cons c cs ih =>
      intro a
      simp only [List.all_cons, Bool.and_eq_true] at hl
      have hc : c.toNat - 48 ≤ 9 := by
        have := of_decide_eq_true hl.1
        omega
      have := ih hl.2 (a * 10 + (c.toNat - 48))
      simp only [List.foldl_cons, List.length_cons]
      calc List.foldl (fun a c => a * 10 + (c.toNat - 48)) (a * 10 + (c.toNat - 48)) cs
          < (a * 10 + (c.toNat - 48) + 1) * 10 ^ cs.length := this
        _ ≤ (a + 1) * 10 ^ (cs.length + 1) := by
            rw [pow_succ]
            have h1 : a * 10 + (c.toNat - 48) + 1 ≤ (a + 1) * 10 := by omega
            calc (a * 10 + (c.toNat - 48) + 1) * 10 ^ cs.length
                ≤ (a + 1) * 10 * 10 ^ cs.length := Nat.mul_le_mul_right _ h1
              _ = (a + 1) * (10 ^ cs.length * 10) := by ring

theorem digitsVal_lt_pow (l : List Char) (hl : l.all isDig = true) :
    digitsVal l < 10 ^ l.length := by
  have := digitsVal_foldl_lt l hl 0
  simpa [digitsVal] using this

theorem parseDigitsI32_eq_some {g : List Char} (h1 : g ≠ [])
    (h2 : digitsVal g ≤ i32Max) :
    parseDigitsI32 g = some ((digitsVal g : Nat) : Int) := by
  simp [parseDigitsI32, h1, h2]

/-- C5: a bare-numeric (pattern 4) result arises only when none of the
three earlier patterns matched, and is accepted only when the season hint
is the negative sentinel or equals the parsed leading season digits; a
known hint that differs from the parsed season produces no match.  In
particular "show.308.mkv" with hint 3 gives (3, 8, false, "03x08") and
"show.3x08.mkv" with an unknown hint gives (3, 8, false, "03x08"). -/
theorem C5_pattern4_hint_guard :
    (∀ (f : String) (hint : Int) (g1 g2 : List Char),
       reFind pat1Body f.data = none →
       reFind pat2Body f.data = none →
       reFind pat3Body f.data = none →
       reFind pat4Body f.data = some (g1, g2) →
       parse_episode_name f hint =
         if hint < 0 ∨ hint = (digitsVal g1 : Int) then
           some ((digitsVal g1 : Int), (digitsVal g2 : Int), false,
             pad02 (digitsVal g1) ++ "x" ++ String.mk g2)
         else none) ∧
    parse_episode_name "show.308.mkv" 3 = some (3, 8, false, "03x08") ∧
    parse_episode_name "show.3x08.mkv" (-1) = some (3, 8, false, "03x08") := by
  refine ⟨?_, by decide, by decide⟩
  intro f hint g1 g2 h1 h2 h3 h4
  obtain ⟨l', hb⟩ := reFind_eq_some h4
  obtain ⟨hne1, hlen1, hdig1, hlen2, hdig2⟩ := pat4Body_shape hb
  have hv1 : digitsVal g1 ≤ i32Max := by
    have := digitsVal_lt_pow g1 hdig1
    have : digitsVal g1 < 10 ^ 2 := by
      calc digitsVal g1 < 10 ^ g1.length := this
        _ ≤ 10 ^ 2 := Nat.pow_le_pow_right (by omega) hlen1
    unfold i32Max
    omega
  have hv2 : digitsVal g2 ≤ i32Max := by
    have := digitsVal_lt_pow g2 hdig2
    rw [hlen2] at this
    unfold i32Max
    omega
  have hne2 : g2 ≠ [] := by
    intro he
    rw [he] at hlen2
    simp at hlen2
  unfold parse_episode_name
  simp only [h1, h2, h3, h4, parseDigitsI32_eq_some hne1 hv1,
    parseDigitsI32_eq_some hne2 hv2, Option.some_bind]
  simp [Int.toNat_natCast]

/-- Witness for C5: at "show.308.mkv" with the known hint 5 (differing
from the parsed season 3), the earlier patterns fail, pattern 4 matches,
and the parser returns no match. -/
theorem C5_pattern4_hint_guard_witness :
    reFind pat1Body "show.308.mkv".data = none ∧
    reFind pat2Body "show.308.mkv".data = none ∧
    reFind pat3Body "show.308.mkv".data = none ∧
    reFind pat4Body "show.308.mkv".data = some (['3'], ['0', '8']) ∧
    parse_episode_name "show.308.mkv" 5 = none := by
  refine ⟨by decide, by decide, by decide, by decide, ?_⟩
  have := C5_pattern4_hint_guard.1 "show.308.mkv" 5 ['3'] ['0', '8']
    (by decide) (by decide) (by decide) (by decide)
  rw [this]
  decide

/-- C6 counterexample: this filename contains the double-episode marker
`s01e04e05` (pattern 2 itself matches it, capturing 01, 04, 05), yet
`parse_episode_name` does not return a double-episode result, because the
single-episode pattern matches elsewhere in the name and wins. -/
theorem C6_double_episode_counterexample :
    reFind pat2Body "x.s02e03.y.s01e04e05.mkv".data =
      some (['0', '1'], ['0', '4'], ['0', '5']) ∧
    parse_episode_name "x.s02e03.y.s01e04e05.mkv" (-1) =
      some (2, 3, false, "02x03") ∧
    parse_episode_name "x.s02e03.y.s01e04e05.mkv" (-1) ≠
      some (1, 4, true, "01x04-05") := by
  refine ⟨by decide, by decide, by decide⟩

/-- C6 amended: for every filename on which the single-episode pattern
(pattern 1) does not match and the double-episode pattern `SxxEyyEzz` /
`SxxEyy-Ezz` (case-insensitive s/e, surrounded by separators, no space
between the season and episode parts) matches with captures xx, yy, zz
whose first two values fit an i32, `parse_episode_name` returns
(season = xx, episode = yy the first episode number, double = true,
display name "xx" ++ "x" ++ "yy" ++ "-" ++ "zz"); in particular
"show.s01e04e05.mkv" yields (1, 4, true, "01x04-05"). -/
theorem C6_double_episode_amended :
    (∀ (f : String) (hint : Int) (g1 g2 g3 : List Char),
       reFind pat1Body f.data = none →
       reFind pat2Body f.data = some (g1, g2, g3) →
       digitsVal g1 ≤ i32Max →
       digitsVal g2 ≤ i32Max →
       parse_episode_name f hint =
         some ((digitsVal g1 : Int), (digitsVal g2 : Int), true,
           String.mk g1 ++ "x" ++ String.mk g2 ++ "-" ++ String.mk g3)) ∧
    parse_episode_name "show.s01e04e05.mkv" (-1) = some (1, 4, true, "01x04-05") := by
  refine ⟨?_, by decide⟩
  intro f hint g1 g2 g3 h1 h2 hv1 hv2
  obtain ⟨l', hb⟩ := reFind_eq_some h2
  obtain ⟨hne1, hne2⟩ := pat2Body_shape hb
  unfold parse_episode_name
  simp only [h1, h2, parseDigitsI32_eq_some hne1 hv1,
    parseDigitsI32_eq_some hne2 hv2, Option.some_bind]

/-- Witness for C6's amended theorem at "show.s01e04e05.mkv". -/
theorem C6_double_episode_amended_witness :
    reFind pat1Body "show.s01e04e05.mkv".data = none ∧
    parse_episode_name "show.s01e04e05.mkv" 7 =
      some (1, 4, true, "01x04-05") := by
  refine ⟨by decide, ?_⟩
  have := C6_double_episode_amended.1 "show.s01e04e05.mkv" 7
    ['0', '1'] ['0', '4'] ['0', '5'] (by decide) (by decide) (by decide) (by decide)
  rw [this]
  decide

/-- C10: `add_collection` errors exactly on an unrecognized collection
type string; the error message names the type; on success exactly one
collection is appended, empty, with the caller-supplied id when given and
`id_hash name` otherwise. -/
theorem from_str_eq_none {s : String} :
    CollectionType.from_str s = none ↔ s ≠ "movies" ∧ s ≠ "shows" := by
  unfold CollectionType.from_str
  split
  · rename_i h
    simp [h]
  · split
    · rename_i h
      simp [h]
    · rename_i h1 h2
      simp [h1, h2]

theorem C10_add_collection_validation (cols : List Collection) (name : String)
    (id : Option String) (ct directory hls : String) :
    ((∃ e, add_collection cols name id ct directory hls = .error e) ↔
       ct ≠ "movies" ∧ ct ≠ "shows") ∧
    (ct ≠ "movies" → ct ≠ "shows" →
       add_collection cols name id ct directory hls =
         .error ("Unknown collection type: " ++ ct)) ∧
    (∀ c', CollectionType.from_str ct = some c' →
       add_collection cols name id ct directory hls =
         .ok (cols ++ [Collection.new (id.getD (id_hash name)) name c' directory hls])) := by
  rcases hf : CollectionType.from_str ct with _ | c0
  · have hne := from_str_eq_none.mp hf
    refine ⟨?_, ?_, ?_⟩
    · simp only [add_collection, hf]
      exact ⟨fun _ => hne, fun _ => ⟨_, rfl⟩⟩
    · intro _ _
      simp only [add_collection, hf]
    · intro c' hc'
      cases hc'
  · have hok : ¬(ct ≠ "movies" ∧ ct ≠ "shows") := by
      intro hcon
      rw [from_str_eq_none.mpr hcon] at hf
      cases hf
    refine ⟨?_, ?_, ?_⟩
    · simp only [add_collection, hf]
      constructor
      · rintro ⟨e, he⟩
        cases he
      · intro hcon
        exact absurd hcon hok
    · intro h1 h2
      exact absurd ⟨h1, h2⟩ hok
    · intro c' hc'
      cases hc'
      simp only [add_collection, hf]

/-- Witness for C10: "invalid" is rejected leaving nothing to publish,
"movies" succeeds appending one empty collection with the given id. -/
theorem C10_add_collection_validation_witness :
    add_collection [] "Test" none "invalid" "/t" "" =
      .error "Unknown collection type: invalid" ∧
    add_collection [] "Test Movies" (some "test-id") "movies" "/t" "" =
      .ok [Collection.new "test-id" "Test Movies" .Movies "/t" ""] := by
  constructor
  · exact (C10_add_collection_validation [] "Test" none "invalid" "/t" "").2.1
      (by decide) (by decide)
  · exact (C10_add_collection_validation [] "Test Movies" (some "test-id")
      "movies" "/t" "").2.2 .Movies (by decide)

/-- C8 counterexample: a season nested inside a show, whose display name
contains the term case-insensitively, is not returned by `search` (the
spec-worded search returns it). -/
theorem C8_search_counterexample :
    cexCollection.items = [Item.Show cexShow] ∧
    cexShow.seasons = [cexSeason] ∧
    containsCI cexSeason.name "cas" = true ∧
    searchSpec [cexCollection] "cas" = ["sid"] ∧
    search [cexCollection] "cas" = [] := by
  refine ⟨by decide, by decide, by decide, by decide, by decide⟩

/-- C8 amended: `search` returns exactly the ids of matching Movies,
matching Shows, matching Episodes nested inside Shows, and matching
top-level Season/Episode items; the names of Seasons nested inside Shows
are not searched. -/
theorem C8_search_amended (cols : List Collection) (term : String) (id : String) :
    id ∈ search cols term ↔
      ∃ c ∈ cols, ∃ item ∈ c.items,
        (∃ m, item = Item.Movie m ∧ containsCI m.name term = true ∧ id = m.id) ∨
        (∃ s, item = Item.Show s ∧
          ((containsCI s.name term = true ∧ id = s.id) ∨
           ∃ se ∈ s.seasons, ∃ e ∈ se.episodes,
             containsCI e.name term = true ∧ id = e.id)) ∨
        (∃ se, item = Item.Season se ∧ containsCI se.name term = true ∧ id = se.id) ∨
        (∃ e, item = Item.Episode e ∧ containsCI e.name term = true ∧ id = e.id) := by
  unfold search
  simp only [List.mem_flatMap]
  constructor
  · rintro ⟨c, hc, item, hi, hm⟩
    refine ⟨c, hc, item, hi, ?_⟩
    rcases item with m | s | se | e <;> dsimp only at hm
    · left
      by_cases hcm : containsCI m.name term = true
      · simp only [hcm, if_true, List.mem_singleton] at hm
        exact ⟨m, rfl, hcm, hm⟩
      · simp [hcm] at hm
    · right; left
      refine ⟨s, rfl, ?_⟩
      simp only [List.mem_append, List.mem_flatMap] at hm
      rcases hm with hm | ⟨se, hse, e, he, hm⟩
      · left
        by_cases hcs : containsCI s.name term = true
        · simp only [hcs, if_true, List.mem_singleton] at hm
          exact ⟨hcs, hm⟩
        · simp [hcs] at hm
      · right
        refine ⟨se, hse, e, he, ?_⟩
        by_cases hce : containsCI e.name term = true
        · simp only [hce, if_true, List.mem_singleton] at hm
          exact ⟨hce, hm⟩
        · simp [hce] at hm
    · right; right; left
      by_cases hcs : containsCI se.name term = true
      · simp only [hcs, if_true, List.mem_singleton] at hm
        exact ⟨se, rfl, hcs, hm⟩
      · simp [hcs] at hm
    · right; right; right
      by_cases hce : containsCI e.name term = true
      · simp only [hce, if_true, List.mem_singleton] at hm
        exact ⟨e, rfl, hce, hm⟩
      · simp [hce] at hm
  · rintro ⟨c, hc, item, hi, hdis⟩
    refine ⟨c, hc, item, hi, ?_⟩
    rcases hdis with ⟨m, rfl, hcm, rfl⟩ | ⟨s, rfl, hss⟩ | ⟨se, rfl, hcs, rfl⟩ |
      ⟨e, rfl, hce, rfl⟩
    · dsimp only
      simp [hcm]
    · dsimp only
      rcases hss with ⟨hcs, rfl⟩ | ⟨se, hse, e, he, hce, rfl⟩
      · simp [hcs]
      · simp only [List.mem_append, List.mem_flatMap]
        right
        exact ⟨se, hse, e, he, by simp [hce]⟩
    · dsimp only
      simp [hcs]
    · dsimp only
      simp [hce]

theorem find?_split {α : Type} {p : α → Bool} :
    ∀ {l : List α} {b : α}, l.find? p = some b →
      ∃ pre post, l = pre ++ b :: post ∧ (∀ x ∈ pre, p x = false) ∧ p b = true := by
  intro l
  induction l with
  | nil => intro b h; cases h
  | cons a as ih =>
      intro b h
      rw [List.find?_cons] at h
      rcases hp : p a with _ | _ <;> rw [hp] at h <;> dsimp only at h
      · obtain ⟨pre, post, heq, hpre, hb⟩ := ih h
        refine ⟨a :: pre, post, by rw [heq, List.cons_append], ?_, hb⟩
        intro x hx
        rcases List.mem_cons.mp hx with rfl | hx
        · exact hp
        · exact hpre x hx
      · cases h
        exact ⟨[], as, rfl, by simp, hp⟩

/-- C9 counterexample: `build_movies` also scans the collection root
itself (WalkDir yields the root at depth 0 and it is not skipped); a root
containing a video file directly yields a Movie although the tree has no
subdirectory, whereas the claim predicts one Movie per enumerated
subdirectory only. -/
theorem C9_build_movies_counterexample :
    cexMovieRoot.dirs = [] ∧
    (build_movies cexMovieRoot).length = 1 ∧
    (∃ m : Movie, build_movies cexMovieRoot =
      [Item.Movie m] ∧ m.path = "" ∧ m.file_name = "m.mkv") := by
  refine ⟨rfl, rfl, ?_⟩
  exact ⟨⟨id_hash "movies", "movies", make_sort_name "movies", "", "", "", "",
    "", "", "m.mkv", 5⟩, rfl, rfl, rfl⟩

/-- C9 amended: `build_movies` enumerates the collection root itself and
the subdirectories up to two levels deep, in depth-first order, and
produces exactly one Movie for each enumerated directory containing at
least one file with a recognized video extension, taking the first such
file (in directory order) as the Movie's video file; a directory without
a video file yields no Movie. -/
theorem C9_build_movies_amended (t : FsDir0) :
    (∀ m : Movie, Item.Movie m ∈ build_movies t ↔
       ∃ e ∈ walkMovieDirs t, scan_movie_directory e = some m) ∧
    (∀ item ∈ build_movies t, ∃ m : Movie, item = Item.Movie m) ∧
    (build_movies t).length =
      ((walkMovieDirs t).filter fun e =>
        e.files.any fun f => is_video_file f.name).length ∧
    (∀ e : WalkEntry,
       ((scan_movie_directory e).isSome ↔ ∃ f ∈ e.files, is_video_file f.name = true)) ∧
    (∀ e : WalkEntry, ∀ m : Movie, scan_movie_directory e = some m →
       ∃ pre vf post, e.files = pre ++ vf :: post ∧
         (∀ f ∈ pre, is_video_file f.name = false) ∧
         is_video_file vf.name = true ∧
         m.file_name = vf.name ∧ m.file_size = vf.size ∧ m.id = id_hash e.name) := by
  refine ⟨?_, ?_, ?_, ?_, ?_⟩
  · intro m
    unfold build_movies
    simp only [List.mem_filterMap, Option.map_eq_some']
    constructor
    · rintro ⟨e, he, mv, hmv, heq⟩
      injection heq with heq
      cases heq
      exact ⟨e, he, hmv⟩
    · rintro ⟨e, he, hmv⟩
      exact ⟨e, he, m, hmv, rfl⟩
  · intro item hitem
    unfold build_movies at hitem
    simp only [List.mem_filterMap, Option.map_eq_some'] at hitem
    obtain ⟨e, -, mv, -, heq⟩ := hitem
    exact ⟨mv, heq.symm⟩
  · unfold build_movies
    rw [List.length_filterMap_eq_countP, ← List.countP_eq_length_filter]
    apply List.countP_congr
    intro e _
    unfold scan_movie_directory find_video_file
    rw [Option.isSome_map', Option.isSome_map', List.find?_isSome, List.any_eq_true]
  · intro e
    unfold scan_movie_directory find_video_file
    rw [Option.isSome_map', List.find?_isSome]
  · intro e m hm
    unfold scan_movie_directory find_video_file at hm
    rw [Option.map_eq_some'] at hm
    obtain ⟨vf, hvf, hmk⟩ := hm
    obtain ⟨pre, post, heq, hpre, hvd⟩ := find?_split hvf
    exact ⟨pre, vf, post, heq, hpre, hvd, by rw [← hmk], by rw [← hmk], by rw [← hmk]⟩

theorem insertSorted_perm {α : Type} (le : α → α → Bool) (a : α) :
    ∀ l : List α, (insertSorted le a l).Perm (a :: l) := by
  intro l
  induction l with
  | nil => exact List.Perm.refl _
  | cons b l ih =>
      unfold insertSorted
      split
      · exact List.Perm.refl _
      · exact (List.Perm.cons b ih).trans (List.Perm.swap a b l)

theorem stableSortByKey_perm {α : Type} (le : α → α → Bool) (l : List α) :
    (stableSortByKey le l).Perm l := by
  induction l with
  | nil => exact List.Perm.refl _
  | cons a l ih =>
      simp only [stableSortByKey, List.foldr_cons]
      exact (insertSorted_perm le a _).trans (List.Perm.cons a ih)

theorem insertSorted_pairwise {α : Type} {le : α → α → Bool}
    (htot : ∀ a b, le a b = true ∨ le b a = true)
    (htrans : ∀ a b c, le a b = true → le b c = true → le a c = true) (a : α) :
    ∀ {l : List α}, List.Pairwise (fun x y => le x y = true) l →
      List.Pairwise (fun x y => le x y = true) (insertSorted le a l) := by
  intro l
  induction l with
  | nil =>
      intro _
      simp [insertSorted]
  | cons b l ih =>
      intro hp
      rw [List.pairwise_cons] at hp
      obtain ⟨hb, hl⟩ := hp
      unfold insertSorted
      split
      · rename_i hab
        rw [List.pairwise_cons]
        refine ⟨?_, ?_⟩
        · intro x hx
          rcases List.mem_cons.mp hx with rfl | hx
          · exact hab
          · exact htrans a b x hab (hb x hx)
        · rw [List.pairwise_cons]
          exact ⟨hb, hl⟩
      · rename_i hab
        have hba : le b a = true := by
          rcases htot a b with h | h
          · exact absurd h hab
          · exact h
        rw [List.pairwise_cons]
        refine ⟨?_, ih hl⟩
        intro x hx
        rcases List.mem_cons.mp ((insertSorted_perm le a l).mem_iff.mp hx) with rfl | hx2
        · exact hba
        · exact hb x hx2

theorem stableSortByKey_pairwise {α : Type} {le : α → α → Bool}
    (htot : ∀ a b, le a b = true ∨ le b a = true)
    (htrans : ∀ a b c, le a b = true → le b c = true → le a c = true) :
    ∀ l : List α, List.Pairwise (fun x y => le x y = true) (stableSortByKey le l) := by
  intro l
  induction l with
  | nil => exact List.Pairwise.nil
  | cons a l ih =>
      simp only [stableSortByKey, List.foldr_cons]
      exact insertSorted_pairwise htot htrans a ih

/-- `sort_by_key` yields a list pairwise-sorted by the key. -/
theorem pairwise_mergeSort_key {α : Type} (key : α → Int) (l : List α) :
    List.Pairwise (fun a b => key a ≤ key b)
      (stableSortByKey (fun a b => decide (key a ≤ key b)) l) := by
  refine List.Pairwise.imp (fun hab => of_decide_eq_true hab)
    (stableSortByKey_pairwise ?_ ?_ l)
  · intro a b
    rcases le_total (key a) (key b) with h | h
    · exact Or.inl (decide_eq_true h)
    · exact Or.inr (decide_eq_true h)
  · intro a b c h1 h2
    exact decide_eq_true (le_trans (of_decide_eq_true h1) (of_decide_eq_true h2))

theorem add_collection_ok {cols : List Collection} {name : String}
    {id : Option String} {ct directory hls : String} {cols' : List Collection}
    (h : add_collection cols name id ct directory hls = .ok cols') :
    ∃ ct', cols' =
      cols ++ [Collection.new (id.getD (id_hash name)) name ct' directory hls] := by
  unfold add_collection at h
  rcases hf : CollectionType.from_str ct with _ | c0 <;> rw [hf] at h
  · cases h
  · cases h
    exact ⟨c0, rfl⟩

theorem scan_season_episodes_sorted (files : List FsFile) (sp : String) (n : Int) :
    List.Pairwise (fun a b : Episode => a.episode_no ≤ b.episode_no)
      (scan_season_directory files sp n).episodes := by
  simp only [scan_season_directory]
  exact pairwise_mergeSort_key (fun e : Episode => e.episode_no) _

theorem scan_season_episode_season {files : List FsFile} {sp : String} {n : Int}
    {e : Episode} (he : e ∈ (scan_season_directory files sp n).episodes) :
    e.season_no = n := by
  simp only [scan_season_directory] at he
  rw [(stableSortByKey_perm _ _).mem_iff, List.mem_filterMap] at he
  obtain ⟨f, -, hsome⟩ := he
  split at hsome
  · split at hsome
    · rename_i ps eno dbl nm hparse
      split at hsome
      · rename_i hps
        cases hsome
        exact hps
      · cases hsome
    · cases hsome
  · cases hsome

theorem scan_show_wellformed (d : FsDir1) :
    WellFormedShow (scan_show_directory d) := by
  constructor
  · simp only [scan_show_directory]
    exact pairwise_mergeSort_key (fun s : Season => s.season_no) _
  · intro se hse
    simp only [scan_show_directory] at hse
    rw [(stableSortByKey_perm _ _).mem_iff, List.mem_filterMap] at hse
    obtain ⟨sd, -, hsome⟩ := hse
    rcases hp : parse_season_number sd.name with _ | n <;> rw [hp] at hsome <;>
      dsimp only at hsome
    · cases hsome
    · cases hsome
      refine ⟨scan_season_episodes_sorted _ _ _, ?_⟩
      intro e he
      rw [scan_season_episode_season he]
      rfl

theorem build_movies_items {t : FsDir0} {item : Item} (h : item ∈ build_movies t) :
    ∃ m, item = Item.Movie m := by
  unfold build_movies at h
  rw [List.mem_filterMap] at h
  obtain ⟨e, -, hsome⟩ := h
  rw [Option.map_eq_some'] at hsome
  obtain ⟨m, -, heq⟩ := hsome
  exact ⟨m, heq.symm⟩

/-- C3: every Show in a published (reachable) catalog is well-formed:
seasons sorted ascending by season number, each season's episodes sorted
ascending by episode number (both imposed after scanning), and every
episode's season number equal to its parent season's (filtered at scan
time); every repository operation preserves this. -/
theorem C3_published_show_wellformed {cols : List Collection}
    (h : Reachable cols) :
    ∀ c ∈ cols, ∀ item ∈ c.items, ∀ s : Show, item = Item.Show s →
      WellFormedShow s := by
  induction h with
  | nil =>
      intro c hc
      cases hc
  | add cols name id ct directory hls cols' _ hok ih =>
      intro c hc item hitem s hs
      obtain ⟨ct', rfl⟩ := add_collection_ok hok
      rw [List.mem_append] at hc
      rcases hc with hc | hc
      · exact ih c hc item hitem s hs
      · rw [List.mem_singleton] at hc
        subst hc
        simp only [Collection.new] at hitem
        cases hitem
  | update cols env _ ih =>
      intro c hc item hitem s hs
      unfold update_collections at hc
      rw [List.mem_map] at hc
      obtain ⟨c0, hc0, rfl⟩ := hc
      unfold rebuildCollection at hitem
      rcases hct : c0.collection_type with _ | _ <;> rw [hct] at hitem <;>
        dsimp only at hitem
      · obtain ⟨m, hm⟩ := build_movies_items hitem
        rw [hs] at hm
        cases hm
      · unfold build_shows at hitem
        rw [List.mem_map] at hitem
        obtain ⟨d, -, hd⟩ := hitem
        rw [hs] at hd
        injection hd with hd
        rw [← hd]
        exact scan_show_wellformed d

/-- Witness for C3 at a concrete reachable catalog built by adding one
shows collection and rebuilding it from a fixture tree with unsorted
folders. -/
theorem C3_published_show_wellformed_witness :
    Reachable (update_collections (fun _ => cexShowsTree)
      [Collection.new "cid" "TV" .Shows "/tv" ""]) ∧
    (∀ c ∈ update_collections (fun _ => cexShowsTree)
        [Collection.new "cid" "TV" .Shows "/tv" ""],
      ∀ item ∈ c.items, ∀ s : Show, item = Item.Show s → WellFormedShow s) := by
  have hadd : add_collection [] "TV" (some "cid") "shows" "/tv" "" =
      .ok [Collection.new "cid" "TV" .Shows "/tv" ""] := rfl
  have hr : Reachable (update_collections (fun _ => cexShowsTree)
      [Collection.new "cid" "TV" .Shows "/tv" ""]) :=
    .update _ _ (.add [] "TV" (some "cid") "shows" "/tv" "" _ .nil hadd)
  exact ⟨hr, C3_published_show_wellformed hr⟩

theorem step_inv {env : String → FsDir0} {pre : List Collection}
    {s s' : SysState} (hinv : C1Inv env pre s) (hstep : Step env s s') :
    C1Inv env pre s' := by
  cases hstep with
  | load p rs =>
      simp only [C1Inv] at hinv ⊢
      obtain ⟨hp, hr⟩ := hinv
      refine ⟨hp, hr, ?_⟩
      rw [hp]
      simp [update_collections]
  | scanOne p c pending done rs =>
      simp only [C1Inv] at hinv ⊢
      obtain ⟨hp, hr, heq⟩ := hinv
      refine ⟨hp, hr, ?_⟩
      rw [← heq]
      simp
  | publish p done rs =>
      simp only [C1Inv] at hinv ⊢
      obtain ⟨hp, hr, heq⟩ := hinv
      simp only [List.map_nil, List.append_nil] at heq
      exact ⟨heq, fun r hrr => Or.inl (hr r hrr)⟩
  | acquire p ph rs =>
      cases ph with
      | idle =>
          simp only [C1Inv] at hinv ⊢
          obtain ⟨hp, hr⟩ := hinv
          refine ⟨hp, fun r hrr => ?_⟩
          rcases List.mem_cons.mp hrr with rfl | hrr
          · exact hp
          · exact hr r hrr
      | loaded pending done =>
          simp only [C1Inv] at hinv ⊢
          obtain ⟨hp, hr, heq⟩ := hinv
          refine ⟨hp, fun r hrr => ?_, heq⟩
          rcases List.mem_cons.mp hrr with rfl | hrr
          · exact hp
          · exact hr r hrr
      | finished =>
          simp only [C1Inv] at hinv ⊢
          obtain ⟨hp, hr⟩ := hinv
          refine ⟨hp, fun r hrr => ?_⟩
          rcases List.mem_cons.mp hrr with rfl | hrr
          · exact Or.inr hp
          · exact hr r hrr

theorem steps_inv {env : String → FsDir0} {pre : List Collection} {s : SysState}
    (h : Steps env ⟨pre, .idle, []⟩ s) : C1Inv env pre s := by
  induction h with
  | refl => simp [C1Inv]
  | tail hsteps hstep ih => exact step_inv ih hstep

/-- A reference, once acquired, stays held (values in the model are
immutable, so a held reference also never changes). -/
theorem steps_readers_mono {env : String → FsDir0} {s s' : SysState}
    (h : Steps env s s') : ∀ r ∈ s.readers, r ∈ s'.readers := by
  induction h with
  | refl => intro r hr; exact hr
  | tail hsteps hstep ih =>
      intro r hr
      have hmid := ih r hr
      cases hstep with
      | load p rs => exact hmid
      | scanOne p c pending done rs => exact hmid
      | publish p done rs => exact hmid
      | acquire p ph rs => exact List.mem_cons_of_mem _ hmid

/-- C1: in every interleaving of one rebuild with concurrent readers, a
snapshot reference acquired before the final publish is the complete
pre-rebuild catalog (and stays held unchanged); one acquired after is the
complete post-rebuild catalog; no acquired reference is ever anything but
one of those two complete catalogs, so no read observes a partially
rebuilt collection list. -/
theorem C1_snapshot_isolation (env : String → FsDir0) (pre : List Collection)
    (s : SysState) (h : Steps env ⟨pre, .idle, []⟩ s) :
    (s.published = pre ∨ s.published = update_collections env pre) ∧
    (∀ r ∈ s.readers, r = pre ∨ r = update_collections env pre) ∧
    (s.phase ≠ .finished → s.published = pre ∧ ∀ r ∈ s.readers, r = pre) ∧
    (s.phase = .finished → s.published = update_collections env pre) ∧
    (∀ s', Steps env s s' → ∀ r ∈ s.readers, r ∈ s'.readers) := by
  have hinv := steps_inv h
  obtain ⟨pub, ph, rs⟩ := s
  cases ph with
  | idle =>
      obtain ⟨hp, hr⟩ := hinv
      refine ⟨Or.inl hp, fun r hrr => Or.inl (hr r hrr), fun _ => ⟨hp, hr⟩,
        ?_, fun s' hs' => steps_readers_mono hs'⟩
      intro hc
      simp at hc
  | loaded pending done =>
      obtain ⟨hp, hr, -⟩ := hinv
      refine ⟨Or.inl hp, fun r hrr => Or.inl (hr r hrr), fun _ => ⟨hp, hr⟩,
        ?_, fun s' hs' => steps_readers_mono hs'⟩
      intro hc
      simp at hc
  | finished =>
      obtain ⟨hp, hr⟩ := hinv
      exact ⟨Or.inr hp, hr, fun hc => absurd rfl hc, fun _ => hp,
        fun s' hs' => steps_readers_mono hs'⟩

/-- Witness for C1: a concrete five-step trace — load, reader acquires,
rebuild the one collection privately, publish, reader acquires — ending
with one reference to the full old catalog and one to the full new one. -/
theorem C1_snapshot_isolation_witness :
    Steps cexEnv ⟨cexPre, .idle, []⟩ cexFinal ∧
    (∀ r ∈ cexFinal.readers, r = cexPre ∨ r = update_collections cexEnv cexPre) ∧
    cexFinal.published = update_collections cexEnv cexPre := by
  have t1 : Steps cexEnv ⟨cexPre, .idle, []⟩ ⟨cexPre, .loaded cexPre [], []⟩ :=
    Relation.ReflTransGen.tail .refl (Step.load cexPre [])
  have t2 : Steps cexEnv ⟨cexPre, .idle, []⟩ ⟨cexPre, .loaded cexPre [], [cexPre]⟩ :=
    Relation.ReflTransGen.tail t1 (Step.acquire cexPre (.loaded cexPre []) [])
  have t3 : Steps cexEnv ⟨cexPre, .idle, []⟩
      ⟨cexPre, .loaded [] ([] ++ [rebuildCollection cexEnv cexC0]), [cexPre]⟩ :=
    Relation.ReflTransGen.tail t2 (Step.scanOne cexPre cexC0 [] [] [cexPre])
  have t4 : Steps cexEnv ⟨cexPre, .idle, []⟩
      ⟨[] ++ [rebuildCollection cexEnv cexC0], .finished, [cexPre]⟩ :=
    Relation.ReflTransGen.tail t3
      (Step.publish cexPre ([] ++ [rebuildCollection cexEnv cexC0]) [cexPre])
  have t5 : Steps cexEnv ⟨cexPre, .idle, []⟩
      ⟨[] ++ [rebuildCollection cexEnv cexC0], .finished,
       ([] ++ [rebuildCollection cexEnv cexC0]) :: [cexPre]⟩ :=
    Relation.ReflTransGen.tail t4
      (Step.acquire ([] ++ [rebuildCollection cexEnv cexC0]) .finished [cexPre])
  have t : Steps cexEnv ⟨cexPre, .idle, []⟩ cexFinal := t5
  have hc := C1_snapshot_isolation cexEnv cexPre cexFinal t
  exact ⟨t, hc.2.1, hc.2.2.2.1 rfl⟩

/-! ### Generic list lemmas for enumeration-order invariance -/

theorem forall₂_map_eq {α β : Type} {R : α → α → Prop} {f g : α → β} :
    ∀ {l1 l2 : List α}, List.Forall₂ R l1 l2 →
      (∀ x y, x ∈ l1 → R x y → f x = g y) → l1.map f = l2.map g := by
  intro l1 l2 h
  induction h with
  | nil => intro _; rfl
  | cons hxy htail ih =>
      intro hmem
      simp only [List.map_cons]
      rw [hmem _ _ (List.mem_cons_self _ _) hxy,
        ih fun x y hx => hmem x y (List.mem_cons_of_mem _ hx)]

theorem forall₂_filterMap_eq {α β : Type} {R : α → α → Prop} {f g : α → Option β} :
    ∀ {l1 l2 : List α}, List.Forall₂ R l1 l2 →
      (∀ x y, x ∈ l1 → R x y → f x = g y) → l1.filterMap f = l2.filterMap g := by
  intro l1 l2 h
  induction h with
  | nil => intro _; rfl
  | cons hxy htail ih =>
      intro hmem
      simp only [List.filterMap_cons]
      rw [hmem _ _ (List.mem_cons_self _ _) hxy,
        ih fun x y hx => hmem x y (List.mem_cons_of_mem _ hx)]

theorem flatMap_forall₂_equiv {α β : Type} {R : α → α → Prop} {S : β → β → Prop}
    {f : α → List β}
    (hpoint : ∀ x y, R x y → ∃ w, (f x).Perm w ∧ List.Forall₂ S w (f y)) :
    ∀ {l1 l2 : List α}, List.Forall₂ R l1 l2 →
      ∃ w, (l1.flatMap f).Perm w ∧ List.Forall₂ S w (l2.flatMap f) := by
  intro l1 l2 h
  induction h with
  | nil => exact ⟨[], List.Perm.refl [], List.Forall₂.nil⟩
  | cons hxy htail ih =>
      obtain ⟨w1, hp1, hf1⟩ := hpoint _ _ hxy
      obtain ⟨w2, hp2, hf2⟩ := ih
      refine ⟨w1 ++ w2, ?_, ?_⟩
      · simp only [List.flatMap_cons]
        exact hp1.append hp2
      · simp only [List.flatMap_cons]
        exact List.rel_append hf1 hf2

theorem forall₂_map_map {α β : Type} {R : α → α → Prop} {S : β → β → Prop}
    {f g : α → β} (hfg : ∀ x y, R x y → S (f x) (g y)) :
    ∀ {l1 l2 : List α}, List.Forall₂ R l1 l2 →
      List.Forall₂ S (l1.map f) (l2.map g) := by
  intro l1 l2 h
  induction h with
  | nil => exact List.Forall₂.nil
  | cons hxy htail ih =>
      simp only [List.map_cons]
      exact List.Forall₂.cons (hfg _ _ hxy) ih

/-- Stable key-sorting of permuted lists with duplicate-free keys yields
identical lists. -/
theorem mergeSort_key_eq_of_perm {α : Type} (key : α → Int) {l1 l2 : List α}
    (hp : l1.Perm l2) (hn : (l1.map key).Nodup) :
    stableSortByKey (fun a b => decide (key a ≤ key b)) l1 =
      stableSortByKey (fun a b => decide (key a ≤ key b)) l2 := by
  have h1 := pairwise_mergeSort_key key l1
  have h2 := pairwise_mergeSort_key key l2
  have hperm : (stableSortByKey (fun a b => decide (key a ≤ key b)) l1).Perm
      (stableSortByKey (fun a b => decide (key a ≤ key b)) l2) :=
    (stableSortByKey_perm _ l1).trans (hp.trans (stableSortByKey_perm _ l2).symm)
  have hn1 : ((stableSortByKey (fun a b => decide (key a ≤ key b)) l1).map key).Nodup :=
    (((stableSortByKey_perm _ l1).map key).nodup_iff).mpr hn
  have hn2 : ((stableSortByKey (fun a b => decide (key a ≤ key b)) l2).map key).Nodup :=
    ((hperm.symm.map key).nodup_iff).mpr hn1
  have hne1 : List.Pairwise (fun a b => key a ≠ key b)
      (stableSortByKey (fun a b => decide (key a ≤ key b)) l1) :=
    List.pairwise_map.mp hn1
  have hne2 : List.Pairwise (fun a b => key a ≠ key b)
      (stableSortByKey (fun a b => decide (key a ≤ key b)) l2) :=
    List.pairwise_map.mp hn2
  have hs1 : List.Pairwise (fun a b => key a < key b)
      (stableSortByKey (fun a b => decide (key a ≤ key b)) l1) :=
    (h1.and hne1).imp fun h => lt_of_le_of_ne h.1 h.2
  have hs2 : List.Pairwise (fun a b => key a < key b)
      (stableSortByKey (fun a b => decide (key a ≤ key b)) l2) :=
    (h2.and hne2).imp fun h => lt_of_le_of_ne h.1 h.2
  haveI : IsAntisymm α fun a b => key a < key b :=
    ⟨fun a b hab hba => absurd (lt_trans hab hba) (lt_irrefl _)⟩
  exact List.eq_of_perm_of_sorted hperm hs1 hs2

theorem any_eq_of_perm {α : Type} {p q : List α} (h : p.Perm q) (pr : α → Bool) :
    p.any pr = q.any pr := by
  cases h1 : p.any pr <;> cases h2 : q.any pr <;> try rfl
  · simp only [List.any_eq_true] at h2
    obtain ⟨x, hx, hpx⟩ := h2
    have hc : p.any pr = true := List.any_eq_true.mpr ⟨x, h.mem_iff.mpr hx, hpx⟩
    rw [h1] at hc
    cases hc
  · simp only [List.any_eq_true] at h1
    obtain ⟨x, hx, hpx⟩ := h1
    have hc : q.any pr = true := List.any_eq_true.mpr ⟨x, h.mem_iff.mp hx, hpx⟩
    rw [h2] at hc
    cases hc

theorem find_image_perm {fs1 fs2 : List FsFile} (h : fs1.Perm fs2) (nm : String) :
    find_image fs1 nm = find_image fs2 nm := by
  unfold find_image
  rw [any_eq_of_perm h, any_eq_of_perm h, any_eq_of_perm h, any_eq_of_perm h]

/-- A season directory scanned from permuted file listings yields the
same Season record, provided its kept episode numbers are distinct (the
stable sort then normalizes the order completely). -/
theorem scan_season_eq_of_perm {fs1 fs2 : List FsFile} {sp : String} {n : Int}
    (hperm : fs1.Perm fs2)
    (hn : ((scan_season_directory fs1 sp n).episodes.map fun e => e.episode_no).Nodup) :
    scan_season_directory fs1 sp n = scan_season_directory fs2 sp n := by
  simp only [scan_season_directory] at hn ⊢
  have hpre := (((stableSortByKey_perm _ _).map
    (fun e : Episode => e.episode_no)).nodup_iff).mp hn
  congr 1
  · exact find_image_perm hperm _
  · exact mergeSort_key_eq_of_perm (fun e : Episode => e.episode_no)
      (hperm.filterMap _) hpre

/-- The season numbers of the unsorted season list are exactly the parsed
folder numbers. -/
theorem seasons_map_season_no (dirs : List FsDir2) (p : String) :
    ((dirs.filterMap fun sd =>
        match parse_season_number sd.name with
        | some season_no => some (scan_season_directory sd.files p season_no)
        | none => none).map fun s : Season => s.season_no) =
      dirs.filterMap fun sd => parse_season_number sd.name := by
  induction dirs with
  | nil => rfl
  | cons sd rest ih =>
      simp only [List.filterMap_cons]
      rcases hp : parse_season_number sd.name with _ | n <;> simp only [hp]
      · exact ih
      · simp only [List.map_cons, ih]
        rfl

theorem scan_show_eq {d1 d2 : FsDir1} (h : Dir1Equiv d1 d2)
    (hsk : (d1.dirs.filterMap fun sd => parse_season_number sd.name).Nodup)
    (hek : ∀ sd ∈ d1.dirs, ∀ n : Int, parse_season_number sd.name = some n →
      ((scan_season_directory sd.files d1.name n).episodes.map fun e =>
        e.episode_no).Nodup) :
    scan_show_directory d1 = scan_show_directory d2 := by
  obtain ⟨hname, hfiles, l, hperm, hfa⟩ := h
  obtain ⟨n1, f1, dd1⟩ := d1
  obtain ⟨n2, f2, dd2⟩ := d2
  dsimp only at hname hfiles hperm hsk hek
  subst hname
  have hpoint : ∀ x y, x ∈ l → Dir2Equiv x y →
      (match parse_season_number x.name with
       | some season_no => some (scan_season_directory x.files n1 season_no)
       | none => none) =
      (match parse_season_number y.name with
       | some season_no => some (scan_season_directory y.files n1 season_no)
       | none => none) := by
    intro x y hx hxy
    obtain ⟨hn2, hf2⟩ := hxy
    rw [← hn2]
    rcases hp : parse_season_number x.name with _ | n
    · rfl
    · have hx1 : x ∈ dd1 := hperm.mem_iff.mpr hx
      have heq1 := scan_season_eq_of_perm hf2 (hek x hx1 n hp)
      dsimp only
      rw [heq1]
  have heq : l.filterMap (fun sd =>
      match parse_season_number sd.name with
      | some season_no => some (scan_season_directory sd.files n1 season_no)
      | none => none) =
    dd2.filterMap fun sd =>
      match parse_season_number sd.name with
      | some season_no => some (scan_season_directory sd.files n1 season_no)
      | none => none := forall₂_filterMap_eq hfa hpoint
  have hpre : (dd1.filterMap (fun sd =>
      match parse_season_number sd.name with
      | some season_no => some (scan_season_directory sd.files n1 season_no)
      | none => none)).Perm
    (dd2.filterMap fun sd =>
      match parse_season_number sd.name with
      | some season_no => some (scan_season_directory sd.files n1 season_no)
      | none => none) := heq ▸ hperm.filterMap _
  have hkeys : ((dd1.filterMap fun sd =>
      match parse_season_number sd.name with
      | some season_no => some (scan_season_directory sd.files n1 season_no)
      | none => none).map fun s : Season => s.season_no).Nodup := by
    rw [seasons_map_season_no]
    exact hsk
  simp only [scan_show_directory]
  rw [find_image_perm hfiles "banner", find_image_perm hfiles "fanart",
    find_image_perm hfiles "folder", find_image_perm hfiles "poster",
    find_image_perm hfiles "logo", find_image_perm hfiles "season-all-banner",
    find_image_perm hfiles "season-all-poster",
    mergeSort_key_eq_of_perm (fun s : Season => s.season_no) hpre hkeys]

theorem build_shows_perm {t1 t2 : FsDir0} (h : Dir0Equiv t1 t2)
    (hsk : showSeasonKeysNodup t1) (hek : showEpisodeKeysNodup t1) :
    (build_shows t1).Perm (build_shows t2) := by
  obtain ⟨-, -, l, hperm, hfa⟩ := h
  unfold build_shows
  have heq : l.map (fun d => Item.Show (scan_show_directory d)) =
      t2.dirs.map fun d => Item.Show (scan_show_directory d) :=
    forall₂_map_eq hfa fun x y hx hxy => by
      rw [scan_show_eq hxy (hsk x (hperm.mem_iff.mpr hx))
        fun sd hsd n hp => hek x (hperm.mem_iff.mpr hx) sd hsd n hp]

  exact heq ▸ hperm.map _

theorem walkEntryIdOpt_equiv {e1 e2 : WalkEntry} (h : EntryEquiv e1 e2) :
    walkEntryIdOpt e1 = walkEntryIdOpt e2 := by
  obtain ⟨hname, -, hfiles⟩ := h
  have hiff : (find_video_file e1.files).isSome = true ↔
      (find_video_file e2.files).isSome = true := by
    unfold find_video_file
    rw [List.find?_isSome, List.find?_isSome]
    constructor
    · rintro ⟨f, hf, hv⟩
      exact ⟨f, hfiles.mem_iff.mp hf, hv⟩
    · rintro ⟨f, hf, hv⟩
      exact ⟨f, hfiles.mem_iff.mpr hf, hv⟩
  unfold walkEntryIdOpt scan_movie_directory
  rcases h1 : find_video_file e1.files with _ | v1 <;>
    rcases h2 : find_video_file e2.files with _ | v2
  · simp only [Option.map_none']
  · rw [h1, h2] at hiff
    exact absurd (hiff.mpr rfl) (by simp)
  · rw [h1, h2] at hiff
    exact absurd (hiff.mp rfl) (by simp)
  · simp only [Option.map_some']
    rw [hname]

theorem walkDir1_equiv {x y : FsDir1} (h : Dir1Equiv x y) :
    ∃ w, (walkDir1 x).Perm w ∧ List.Forall₂ EntryEquiv w (walkDir1 y) := by
  obtain ⟨hn, hf, l2, hp2, hfa2⟩ := h
  refine ⟨⟨x.name, x.name, x.files⟩ ::
    l2.map (fun d2 => ⟨d2.name, x.name ++ "/" ++ d2.name, d2.files⟩), ?_, ?_⟩
  · unfold walkDir1
    exact List.Perm.cons _ (hp2.map _)
  · unfold walkDir1
    refine List.Forall₂.cons ⟨hn, hn, hf⟩ ?_
    refine forall₂_map_map ?_ hfa2
    rintro p q ⟨hpn, hpf⟩
    exact ⟨hpn, by rw [hn, hpn], hpf⟩

theorem walk_equiv {t1 t2 : FsDir0} (h : Dir0Equiv t1 t2) :
    ∃ lw, (walkMovieDirs t1).Perm lw ∧
      List.Forall₂ EntryEquiv lw (walkMovieDirs t2) := by
  obtain ⟨hname, hfiles, l, hperm, hfa⟩ := h
  obtain ⟨w, hw1, hw2⟩ :=
    flatMap_forall₂_equiv (fun x y hxy => walkDir1_equiv hxy) hfa
  refine ⟨⟨t1.name, "", t1.files⟩ :: w, ?_, ?_⟩
  · unfold walkMovieDirs
    exact List.Perm.cons _ ((List.Perm.flatMap_right walkDir1 hperm).trans hw1)
  · unfold walkMovieDirs
    exact List.Forall₂.cons ⟨hname, rfl, hfiles⟩ hw2

theorem build_movies_ids_eq_filterMap (t : FsDir0) :
    (build_movies t).map Item.id = (walkMovieDirs t).filterMap walkEntryIdOpt := by
  unfold build_movies walkEntryIdOpt
  rw [List.map_filterMap]
  have hfuse : ∀ e : WalkEntry,
      Option.map Item.id (Option.map Item.Movie (scan_movie_directory e)) =
        Option.map (fun m : Movie => m.id) (scan_movie_directory e) := by
    intro e
    rcases scan_movie_directory e with _ | m <;> rfl
  simp only [hfuse]

theorem build_movies_ids_perm {t1 t2 : FsDir0} (h : Dir0Equiv t1 t2) :
    ((build_movies t1).map Item.id).Perm ((build_movies t2).map Item.id) := by
  obtain ⟨lw, hp, hfa⟩ := walk_equiv h
  rw [build_movies_ids_eq_filterMap, build_movies_ids_eq_filterMap]
  have heq : lw.filterMap walkEntryIdOpt =
      (walkMovieDirs t2).filterMap walkEntryIdOpt :=
    forall₂_filterMap_eq hfa fun x y _ hxy => walkEntryIdOpt_equiv hxy
  exact heq ▸ hp.filterMap _

/-- C2: two scans of the same tree whose directories are enumerated in
different orders give the same multiset (hence set) of movie ids, and for
shows give the same shows up to the unspecified top-level order — each
show record identical, so all ids agree and the ordering of seasons
within each show and of episodes within each season is the same; ids
depend only on directory names, show paths and season/episode numbers.
The key-distinctness hypotheses rule out two folders of the same show
parsing to one season number or two files to one episode number, where
the stable sort would preserve enumeration order. -/
theorem C2_scan_enumeration_invariance
    (mt1 mt2 st1 st2 : FsDir0) (hm : Dir0Equiv mt1 mt2) (hs : Dir0Equiv st1 st2)
    (hsk : showSeasonKeysNodup st1) (hek : showEpisodeKeysNodup st1) :
    ((build_movies mt1).map Item.id).Perm ((build_movies mt2).map Item.id) ∧
    (build_shows st1).Perm (build_shows st2) :=
  ⟨build_movies_ids_perm hm, build_shows_perm hs hsk hek⟩

/-- Witness for C2 at two concretely permuted fixture trees. -/
theorem C2_scan_enumeration_invariance_witness :
    Dir0Equiv cexMoviesTree cexMoviesTreeRev ∧
    Dir0Equiv cexShowsTree cexShowsTreeRev ∧
    showSeasonKeysNodup cexShowsTree ∧
    showEpisodeKeysNodup cexShowsTree ∧
    ((build_movies cexMoviesTree).map Item.id).Perm
      ((build_movies cexMoviesTreeRev).map Item.id) ∧
    (build_shows cexShowsTree).Perm (build_shows cexShowsTreeRev) := by
  have hm : Dir0Equiv cexMoviesTree cexMoviesTreeRev := by
    refine ⟨rfl, List.Perm.refl _,
      [⟨"Beta", [], []⟩,
       ⟨"Alpha", [⟨"x.srt", 1⟩, ⟨"a.mkv", 2⟩], [⟨"Extras", [⟨"e.mp4", 3⟩]⟩]⟩],
      ?_, ?_⟩
    · exact List.Perm.swap _ _ _
    · refine List.Forall₂.cons ⟨rfl, List.Perm.refl _, [], List.Perm.refl _,
        List.Forall₂.nil⟩ ?_
      refine List.Forall₂.cons ⟨rfl, List.Perm.swap _ _ _,
        [⟨"Extras", [⟨"e.mp4", 3⟩]⟩], List.Perm.refl _,
        List.Forall₂.cons ⟨rfl, List.Perm.refl _⟩ List.Forall₂.nil⟩ List.Forall₂.nil
  have hs : Dir0Equiv cexShowsTree cexShowsTreeRev := by
    refine ⟨rfl, List.Perm.refl _,
      [⟨"MyShow", [],
        [⟨"Season 2", [⟨"a.s02e01.mkv", 1⟩]⟩,
         ⟨"Season 1", [⟨"b.s01e02.mkv", 2⟩, ⟨"b.s01e01.mkv", 3⟩]⟩]⟩],
      List.Perm.refl _, ?_⟩
    refine List.Forall₂.cons ?_ List.Forall₂.nil
    refine ⟨rfl, List.Perm.refl _,
      [⟨"Season 1", [⟨"b.s01e02.mkv", 2⟩, ⟨"b.s01e01.mkv", 3⟩]⟩,
       ⟨"Season 2", [⟨"a.s02e01.mkv", 1⟩]⟩], List.Perm.swap _ _ _, ?_⟩
    refine List.Forall₂.cons ⟨rfl, List.Perm.swap _ _ _⟩ ?_
    exact List.Forall₂.cons ⟨rfl, List.Perm.refl _⟩ List.Forall₂.nil
  have hsk : showSeasonKeysNodup cexShowsTree := by
    unfold showSeasonKeysNodup
    decide
  have hek : showEpisodeKeysNodup cexShowsTree := by
    unfold showEpisodeKeysNodup
    decide
  have hc := C2_scan_enumeration_invariance cexMoviesTree cexMoviesTreeRev
    cexShowsTree cexShowsTreeRev hm hs hsk hek
  exact ⟨hm, hs, hsk, hek, hc.1, hc.2⟩

/-! ### next_up: lexicographic order facts -/

theorem lexAfter_irrefl (p : Int × Int) : lexAfter p p = false := by
  simp only [lexAfter, decide_eq_false_iff_not]
  omega

theorem lexAfter_trans {a b c : Int × Int} (h1 : lexAfter a b = true)
    (h2 : lexAfter b c = true) : lexAfter a c = true := by
  simp only [lexAfter, decide_eq_true_eq] at *
  omega

theorem lexAfter_lt_of_le_of_lt {a b c : Int × Int}
    (h1 : lexAfter a b = false) (h2 : lexAfter a c = true) :
    lexAfter b c = true := by
  simp only [lexAfter, decide_eq_false_iff_not, decide_eq_true_eq] at *
  omega

theorem lexAfter_not_gt_of_le_of_lt {a b c : Int × Int}
    (h1 : lexAfter a b = false) (h2 : lexAfter a c = true) :
    lexAfter c b = false := by
  simp only [lexAfter, decide_eq_false_iff_not, decide_eq_true_eq] at *
  omega

theorem lexAfter_le_trans {a b c : Int × Int} (h1 : lexAfter b a = false)
    (h2 : lexAfter c b = false) : lexAfter c a = false := by
  simp only [lexAfter, decide_eq_false_iff_not] at *
  omega

/-! ### next_up: firstOccur -/

theorem mem_firstOccur {x : String} :
    ∀ {l : List String}, x ∈ firstOccur l ↔ x ∈ l := by
  intro l
  induction l with
  | nil => simp [firstOccur]
  | cons y ys ih =>
      by_cases hxy : x = y
      · subst hxy
        simp [firstOccur]
      · simp [firstOccur, List.mem_filter, hxy, ih]

theorem firstOccur_nodup : ∀ (l : List String), (firstOccur l).Nodup := by
  intro l
  induction l with
  | nil => exact List.nodup_nil
  | cons y ys ih =>
      simp only [firstOccur]
      refine List.nodup_cons.mpr ⟨?_, List.Nodup.filter _ ih⟩
      intro hmem
      have := (List.mem_filter.mp hmem).2
      simp at this

theorem firstOccur_cons (y : String) (ys : List String) :
    firstOccur (y :: ys) = y :: (firstOccur ys).filter (fun z => z ≠ y) := rfl

theorem firstOccur_append (l : List String) (x : String) :
    firstOccur (l ++ [x]) =
      if x ∈ l then firstOccur l else firstOccur l ++ [x] := by
  induction l with
  | nil => simp [firstOccur]
  | cons y ys ih =>
      rw [List.cons_append]
      simp only [firstOccur_cons]
      rw [ih]
      by_cases hxy : x = y
      · subst hxy
        rw [if_pos (List.mem_cons_self _ _)]
        by_cases hmem : x ∈ ys
        · rw [if_pos hmem]
        · rw [if_neg hmem, List.filter_append]
          simp
      · by_cases hmem : x ∈ ys
        · rw [if_pos hmem, if_pos (List.mem_cons_of_mem _ hmem)]
        · rw [if_neg hmem, List.filter_append, if_neg (by
            intro hmx
            rcases List.mem_cons.mp hmx with h | h
            · exact hxy h
            · exact hmem h)]
          simp [hxy]

/-! ### next_up: findSome? over a split list -/

theorem findSome?_before_none {α β : Type} (f : α → Option β) :
    ∀ (pre : List α) (x : α) (rest : List α) {r : β},
      (∀ y ∈ pre, f y = none) → f x = some r →
      (pre ++ x :: rest).findSome? f = some r := by
  intro pre
  induction pre with
  | nil =>
      intro x rest r _ hx
      rw [List.nil_append, List.findSome?_cons, hx]
  | cons a as ih =>
      intro x rest r hpre hx
      rw [List.cons_append, List.findSome?_cons,
        hpre a (List.mem_cons_self _ _)]
      exact ih x rest (fun y hy => hpre y (List.mem_cons_of_mem _ hy)) hx

/-! ### next_up: properties of specBest -/

theorem exists_max_pair : ∀ (g : List RWatched), g ≠ [] →
    ∃ m ∈ g, ∀ x ∈ g, lexAfter (pairOf m) (pairOf x) = false := by
  intro g
  induction g with
  | nil => intro h; exact absurd rfl h
  | cons w g' ih =>
      intro _
      by_cases hg' : g' = []
      · subst hg'
        refine ⟨w, List.mem_cons_self _ _, ?_⟩
        intro x hx
        rcases List.mem_cons.mp hx with rfl | h
        · exact lexAfter_irrefl _
        · exact absurd h (List.not_mem_nil x)
      · obtain ⟨m, hm, hmax⟩ := ih hg'
        by_cases hwm : lexAfter (pairOf w) (pairOf m) = true
        · refine ⟨m, List.mem_cons_of_mem _ hm, ?_⟩
          intro x hx
          rcases List.mem_cons.mp hx with rfl | hx'
          · cases h : lexAfter (pairOf m) (pairOf x) with
            | false => rfl
            | true =>
                have := lexAfter_trans hwm h
                rw [lexAfter_irrefl] at this
                cases this
          · exact hmax x hx'
        · have hwm' : lexAfter (pairOf w) (pairOf m) = false := by
            cases h : lexAfter (pairOf w) (pairOf m) with
            | false => rfl
            | true => exact absurd h hwm
          refine ⟨w, List.mem_cons_self _ _, ?_⟩
          intro x hx
          rcases List.mem_cons.mp hx with rfl | hx'
          · exact lexAfter_irrefl _
          · exact lexAfter_le_trans (hmax x hx') hwm'

theorem specBest_isSome {g : List RWatched} (h : g ≠ []) :
    ∃ b, specBest g = some b := by
  obtain ⟨m, hm, hmax⟩ := exists_max_pair g h
  have hs : (specBest g).isSome = true := by
    unfold specBest
    rw [List.find?_isSome]
    refine ⟨m, hm, ?_⟩
    rw [List.all_eq_true]
    intro x hx
    rw [hmax x hx]
    rfl
  exact Option.isSome_iff_exists.mp hs

theorem specBest_spec {g : List RWatched} {b : RWatched}
    (h : specBest g = some b) :
    b ∈ g ∧ ∀ x ∈ g, lexAfter (pairOf b) (pairOf x) = false := by
  unfold specBest at h
  refine ⟨List.mem_of_find?_eq_some h, ?_⟩
  have hp := List.find?_some h
  rw [List.all_eq_true] at hp
  intro x hx
  have hx' := hp x hx
  cases he : lexAfter (pairOf b) (pairOf x) with
  | false => rfl
  | true => rw [he] at hx'; exact absurd hx' (by simp)

theorem specBest_singleton (w : RWatched) : specBest [w] = some w := by
  unfold specBest
  apply List.find?_cons_of_pos
  simp [lexAfter_irrefl]

/-- The predicate of `specBest` over `g ++ [w]`, split into its `g` part
and the comparison with `w`. -/
theorem specBest_append_pred (g : List RWatched) (w : RWatched) :
    (fun z => (g ++ [w]).all fun x => ! lexAfter (pairOf z) (pairOf x)) =
      fun z => ((g.all fun x => ! lexAfter (pairOf z) (pairOf x)) &&
        ! lexAfter (pairOf z) (pairOf w)) := by
  funext z
  rw [List.all_append]
  simp

theorem specBest_append_none {g : List RWatched} {w : RWatched}
    (h : specBest g = none) : specBest (g ++ [w]) = some w := by
  have hg : g = [] := by
    by_contra hne
    obtain ⟨b, hb⟩ := specBest_isSome hne
    rw [h] at hb
    cases hb
  subst hg
  exact specBest_singleton w

theorem specBest_append_gt {g : List RWatched} {b w : RWatched}
    (hb : specBest g = some b) (hw : lexAfter (pairOf b) (pairOf w) = true) :
    specBest (g ++ [w]) = some w := by
  obtain ⟨hbmem, hbmax⟩ := specBest_spec hb
  unfold specBest
  rw [specBest_append_pred, List.find?_append]
  have hgnone : (g.find? fun z =>
      ((g.all fun x => ! lexAfter (pairOf z) (pairOf x)) &&
        ! lexAfter (pairOf z) (pairOf w))) = none := by
    rw [List.find?_eq_none]
    intro z hz hcontra
    have h2 := (Bool.and_eq_true _ _).mp hcontra
    have hzw : lexAfter (pairOf z) (pairOf w) = true :=
      lexAfter_lt_of_le_of_lt (hbmax z hz) hw
    rw [hzw] at h2
    exact absurd h2.2 (by simp)
  rw [hgnone]
  have hwp : ([w].find? fun z =>
      ((g.all fun x => ! lexAfter (pairOf z) (pairOf x)) &&
        ! lexAfter (pairOf z) (pairOf w))) = some w := by
    apply List.find?_cons_of_pos
    rw [Bool.and_eq_true]
    constructor
    · rw [List.all_eq_true]
      intro x hx
      rw [lexAfter_not_gt_of_le_of_lt (hbmax x hx) hw]
      rfl
    · rw [lexAfter_irrefl]
      rfl
  rw [hwp]
  rfl

theorem specBest_append_le {g : List RWatched} {b w : RWatched}
    (hb : specBest g = some b) (hw : lexAfter (pairOf b) (pairOf w) = false) :
    specBest (g ++ [w]) = some b := by
  have hb' := hb
  unfold specBest at hb'
  unfold specBest
  rw [specBest_append_pred, List.find?_append]
  obtain ⟨pre, post, hpg, hpre, hpb⟩ := find?_split hb'
  have hgfind : (g.find? fun z =>
      ((g.all fun x => ! lexAfter (pairOf z) (pairOf x)) &&
        ! lexAfter (pairOf z) (pairOf w))) = some b := by
    nth_rewrite 2 [hpg]
    rw [List.find?_append]
    have hprenone : (pre.find? fun z =>
        ((g.all fun x => ! lexAfter (pairOf z) (pairOf x)) &&
          ! lexAfter (pairOf z) (pairOf w))) = none := by
      rw [List.find?_eq_none]
      intro z hz hcontra
      have h2 := (Bool.and_eq_true _ _).mp hcontra
      have hz' : (g.all fun x => ! lexAfter (pairOf z) (pairOf x)) = false :=
        hpre z hz
      rw [hz'] at h2
      exact absurd h2.1 (by simp)
    rw [hprenone]
    have hmid : ((b :: post).find? fun z =>
        ((g.all fun x => ! lexAfter (pairOf z) (pairOf x)) &&
          ! lexAfter (pairOf z) (pairOf w))) = some b := by
      apply List.find?_cons_of_pos
      rw [Bool.and_eq_true]
      exact ⟨hpb, by rw [hw]; rfl⟩
    rw [hmid]
    rfl
  rw [hgfind]
  rfl

/-! ### next_up: the show map equals its specification -/

theorem updateShowMap_not_mem {sid : String} (sno eno : Int) (si ei : Nat) :
    ∀ (acc : List ShowEntry), sid ∉ (acc.map fun en => en.show_id) →
      updateShowMap acc sid sno eno si ei =
        acc ++ [⟨sid, sno, eno, si, ei⟩] := by
  intro acc
  induction acc with
  | nil => intro _; rfl
  | cons en rest ih =>
      intro h
      simp only [List.map_cons, List.mem_cons, not_or] at h
      simp only [updateShowMap]
      rw [if_neg (fun he => h.1 he.symm), ih h.2, List.cons_append]

theorem updateShowMap_mem {en : ShowEntry} {sid : String}
    (hsid : en.show_id = sid) (sno eno : Int) (si ei : Nat) :
    ∀ (a1 a2 : List ShowEntry), sid ∉ (a1.map fun x => x.show_id) →
      updateShowMap (a1 ++ en :: a2) sid sno eno si ei =
        a1 ++ (if lexAfter (en.season_no, en.episode_no) (sno, eno) then
          (⟨sid, sno, eno, si, ei⟩ : ShowEntry) else en) :: a2 := by
  intro a1
  induction a1 with
  | nil =>
      intro a2 _
      simp only [List.nil_append, updateShowMap]
      rw [if_pos hsid]
  | cons x xs ih =>
      intro a2 h
      simp only [List.map_cons, List.mem_cons, not_or] at h
      simp only [List.cons_append, updateShowMap, List.append_eq]
      rw [if_neg (fun he => h.1 he.symm), ih a2 h.2]

theorem nuSlot_eq {r : List RWatched} {sid : String}
    (h : sid ∈ r.map fun w => w.sh.id) :
    ∃ b, specBest (r.filter fun w => w.sh.id = sid) = some b ∧
      b.sh.id = sid ∧ nuSlot r sid = some (entryOf b) := by
  have hne : (r.filter fun w => w.sh.id = sid) ≠ [] := by
    obtain ⟨x, hx, hkx⟩ := List.mem_map.mp h
    intro hnil
    rw [List.filter_eq_nil_iff] at hnil
    exact hnil x hx (by simp [hkx])
  obtain ⟨b, hb⟩ := specBest_isSome hne
  have hbkey : b.sh.id = sid := by
    have hmem := (specBest_spec hb).1
    have := (List.mem_filter.mp hmem).2
    simpa using this
  exact ⟨b, hb, hbkey, by unfold nuSlot; rw [hb]; rfl⟩

theorem filterMap_slot_keys {G : String → Option ShowEntry} :
    ∀ (L : List String), (∀ sid ∈ L, ∃ e, G sid = some e ∧ e.show_id = sid) →
      ((L.filterMap G).map fun en => en.show_id) = L := by
  intro L
  induction L with
  | nil => intro _; rfl
  | cons s ss ih =>
      intro h
      obtain ⟨e, he, hk⟩ := h s (List.mem_cons_self _ _)
      simp only [List.filterMap_cons, he, List.map_cons, hk]
      rw [ih (fun sid hsid => h sid (List.mem_cons_of_mem _ hsid))]

theorem nuSlot_keys (r : List RWatched) :
    ∀ (L : List String), (∀ sid ∈ L, sid ∈ r.map fun w => w.sh.id) →
      (((L.filterMap (nuSlot r)).map fun en => en.show_id) = L) := by
  intro L hL
  apply filterMap_slot_keys
  intro sid hsid
  obtain ⟨b, _, hbkey, hslot⟩ := nuSlot_eq (hL sid hsid)
  exact ⟨entryOf b, hslot, hbkey⟩

theorem nuSlot_skip {r : List RWatched} {w : RWatched} {sid : String}
    (hne : ¬(w.sh.id = sid)) : nuSlot (r ++ [w]) sid = nuSlot r sid := by
  unfold nuSlot
  have harg : ((r ++ [w]).filter fun x => x.sh.id = sid) =
      r.filter fun x => x.sh.id = sid := by
    rw [List.filter_append]
    simp [hne]
  rw [harg]

theorem buildMap_eq_specMap : ∀ (r : List RWatched), buildMap r = specMap r := by
  intro r
  induction r using List.reverseRecOn with
  | nil => rfl
  | append_singleton r w ih =>
      have hbuild : buildMap (r ++ [w]) = nextUpStep (buildMap r) w := by
        unfold buildMap
        rw [List.foldl_append]
        rfl
      rw [hbuild, ih]
      unfold specMap nextUpStep
      simp only [List.map_append, List.map_cons, List.map_nil]
      rw [firstOccur_append]
      by_cases hmem : w.sh.id ∈ r.map fun w => w.sh.id
      · -- the show already has an entry: the conditional update
        rw [if_pos hmem]
        have hfo : w.sh.id ∈ firstOccur (r.map fun w => w.sh.id) :=
          mem_firstOccur.mpr hmem
        obtain ⟨F1, F2, hfsplit⟩ := List.append_of_mem hfo
        have hnd := firstOccur_nodup (r.map fun w => w.sh.id)
        rw [hfsplit] at hnd
        have hx1 : w.sh.id ∉ F1 := fun hm1 =>
          (List.disjoint_of_nodup_append hnd) hm1 (List.mem_cons_self _ _)
        obtain ⟨b, hb, hbkey, hslot⟩ := nuSlot_eq hmem
        have harg : ((r ++ [w]).filter fun x => x.sh.id = w.sh.id) =
            (r.filter fun x => x.sh.id = w.sh.id) ++ [w] := by
          rw [List.filter_append]
          simp
        have hF1sub : ∀ sid ∈ F1, sid ∈ r.map fun w => w.sh.id := by
          intro sid hsid
          apply mem_firstOccur.mp
          rw [hfsplit]
          exact List.mem_append_left _ hsid
        have hF2sub : ∀ sid ∈ F2, sid ∈ r.map fun w => w.sh.id := by
          intro sid hsid
          apply mem_firstOccur.mp
          rw [hfsplit]
          exact List.mem_append_right _ (List.mem_cons_of_mem _ hsid)
        have hF1skip : F1.filterMap (nuSlot (r ++ [w])) =
            F1.filterMap (nuSlot r) := by
          apply List.filterMap_congr
          intro sid hsid
          exact nuSlot_skip (fun he => hx1 (he ▸ hsid))
        have hF2skip : F2.filterMap (nuSlot (r ++ [w])) =
            F2.filterMap (nuSlot r) := by
          apply List.filterMap_congr
          intro sid hsid
          have hx2 : w.sh.id ∉ F2 :=
            (List.nodup_cons.mp hnd.of_append_right).1
          exact nuSlot_skip (fun he => hx2 (he ▸ hsid))
        have hkeysF1 : (((F1.filterMap (nuSlot r)).map fun en => en.show_id)
            = F1) := nuSlot_keys r F1 hF1sub
        have hmid : nuSlot (r ++ [w]) w.sh.id =
            some (entryOf (if lexAfter (pairOf b) (pairOf w) then w else b)) := by
          unfold nuSlot
          rw [harg]
          cases hlex : lexAfter (pairOf b) (pairOf w) with
          | true => rw [specBest_append_gt hb hlex]; rfl
          | false => rw [specBest_append_le hb hlex]; rfl
        simp only [hfsplit, List.filterMap_append, List.filterMap_cons, hslot,
          hmid, hF1skip, hF2skip]
        rw [updateShowMap_mem hbkey w.season_no w.episode_no w.season_idx
          w.ep_idx (F1.filterMap (nuSlot r)) (F2.filterMap (nuSlot r))
          (by rw [hkeysF1]; exact hx1)]
        cases hlex : lexAfter (pairOf b) (pairOf w) with
        | true =>
            have hpair : lexAfter ((entryOf b).season_no, (entryOf b).episode_no)
                (w.season_no, w.episode_no) = true := hlex
            rw [if_pos hpair]
            rfl
        | false =>
            have hpair : lexAfter ((entryOf b).season_no, (entryOf b).episode_no)
                (w.season_no, w.episode_no) = false := hlex
            rw [if_neg (by rw [hpair]; exact fun hc => Bool.noConfusion hc)]
            rfl
      · -- a new show: the entry is appended
        rw [if_neg hmem]
        have hnotfo : w.sh.id ∉ firstOccur (r.map fun w => w.sh.id) :=
          fun hfo => hmem (mem_firstOccur.mp hfo)
        have hkeys : (((firstOccur (r.map fun w => w.sh.id)).filterMap
            (nuSlot r)).map fun en => en.show_id)
            = firstOccur (r.map fun w => w.sh.id) :=
          nuSlot_keys r _ (fun sid hsid => mem_firstOccur.mp hsid)
        have hskip : (firstOccur (r.map fun w => w.sh.id)).filterMap
            (nuSlot (r ++ [w])) =
            (firstOccur (r.map fun w => w.sh.id)).filterMap (nuSlot r) := by
          apply List.filterMap_congr
          intro sid hsid
          exact nuSlot_skip (fun he => hnotfo (he ▸ hsid))
        have hnew : nuSlot (r ++ [w]) w.sh.id = some (entryOf w) := by
          unfold nuSlot
          have harg : ((r ++ [w]).filter fun x => x.sh.id = w.sh.id) = [w] := by
            rw [List.filter_append, List.filter_eq_nil_iff.mpr ?_]
            · simp
            · intro x hx hcx
              exact hmem (List.mem_map.mpr ⟨x, hx, by simpa using hcx⟩)
          rw [harg, specBest_singleton]
          rfl
        simp only [List.filterMap_append, List.filterMap_cons,
          List.filterMap_nil, hskip, hnew]
        rw [updateShowMap_not_mem w.season_no w.episode_no
          w.season_idx w.ep_idx _ (by rw [hkeys]; exact hnotfo)]
        rfl

/-! ### next_up: the fold over watched ids, and id lookup under
well-formedness -/

theorem nextUp_fold (cols : List Collection) :
    ∀ (ids : List String) (acc : List ShowEntry),
      ids.foldl (fun acc episode_id =>
        (resolveEpisode cols episode_id).elim acc (nextUpStep acc)) acc =
      (resolveWatched cols ids).foldl nextUpStep acc := by
  intro ids
  induction ids with
  | nil => intro acc; rfl
  | cons x xs ih =>
      intro acc
      rw [List.foldl_cons]
      unfold resolveWatched
      rw [List.filterMap_cons]
      cases hg : resolveEpisode cols x with
      | none => simp only [hg, Option.elim]; exact ih acc
      | some w => simp only [hg, Option.elim]; exact ih (nextUpStep acc w)

theorem get_episode_by_id_mem {cols : List Collection} {eid : String}
    {c : Collection} {sh : Show} {se : Season} {ep : Episode}
    (h : get_episode_by_id cols eid = some (c, sh, se, ep)) :
    c ∈ cols ∧ Item.Show sh ∈ c.items := by
  unfold get_episode_by_id at h
  obtain ⟨c', hc', h1⟩ := List.exists_of_findSome?_eq_some h
  obtain ⟨item, hitem, h2⟩ := List.exists_of_findSome?_eq_some h1
  cases item with
  | Show sh' =>
      obtain ⟨se', hse', h3⟩ := List.exists_of_findSome?_eq_some h2
      obtain ⟨ep', hep', h4⟩ := List.exists_of_findSome?_eq_some h3
      split at h4
      · rw [Option.some.injEq] at h4
        simp only [Prod.mk.injEq] at h4
        obtain ⟨rfl, rfl, rfl, rfl⟩ := h4
        exact ⟨hc', hitem⟩
      · cases h4
  | Movie m => simp at h2
  | Season se2 => simp at h2
  | Episode e2 => simp at h2

theorem resolveEpisode_show_mem {cols : List Collection} {eid : String}
    {w : RWatched} (h : resolveEpisode cols eid = some w) :
    ∃ c ∈ cols, Item.Show w.sh ∈ c.items := by
  unfold resolveEpisode at h
  cases hg : get_episode_by_id cols eid with
  | none => rw [hg] at h; simp at h
  | some q =>
      obtain ⟨c, sh, se, ep⟩ := q
      rw [hg] at h
      have hmem := get_episode_by_id_mem hg
      dsimp only at h
      split at h
      · split at h
        · rw [Option.some.injEq] at h
          subst h
          exact ⟨c, hmem.1, hmem.2⟩
        · cases h
      · cases h

theorem item_search_id_mem {iid : String} {item r : Item}
    (h : item_search iid item = some r) : iid ∈ itemIds item := by
  cases item with
  | Movie m =>
      simp only [item_search] at h
      split at h
      · rename_i hcond
        subst hcond
        simp [itemIds]
      · cases h
  | Season se =>
      simp only [item_search] at h
      split at h
      · rename_i hcond
        subst hcond
        simp [itemIds]
      · cases h
  | Episode e =>
      simp only [item_search] at h
      split at h
      · rename_i hcond
        subst hcond
        simp [itemIds]
      · cases h
  | Show s =>
      simp only [item_search] at h
      split at h
      · rename_i hcond
        subst hcond
        simp [itemIds]
      · obtain ⟨season, hseas, h2⟩ := List.exists_of_findSome?_eq_some h
        split at h2
        · rename_i hcond2
          subst hcond2
          simp only [itemIds, List.mem_cons]
          refine Or.inr (List.mem_flatMap.mpr ⟨season, hseas, ?_⟩)
          exact List.mem_cons_self _ _
        · obtain ⟨e, he, h3⟩ := List.exists_of_findSome?_eq_some h2
          split at h3
          · rename_i hcond3
            subst hcond3
            simp only [itemIds, List.mem_cons]
            refine Or.inr (List.mem_flatMap.mpr ⟨season, hseas, ?_⟩)
            exact List.mem_cons_of_mem _ (List.mem_map.mpr ⟨e, he, rfl⟩)
          · cases h3

theorem find_collection_self {cols : List Collection} {c : Collection}
    (hnd : (cols.map fun x => x.id).Nodup) (hc : c ∈ cols) :
    get_collection cols c.id = some c := by
  unfold get_collection
  induction cols with
  | nil => cases hc
  | cons c0 rest ih =>
      rw [List.map_cons, List.nodup_cons] at hnd
      by_cases h0 : c0.id = c.id
      · have hcc : c = c0 := by
          rcases List.mem_cons.mp hc with rfl | hr
          · rfl
          · have hme : c.id ∈ rest.map fun x => x.id :=
              List.mem_map.mpr ⟨c, hr, rfl⟩
            rw [← h0] at hme
            exact absurd hme hnd.1
        subst hcc
        exact List.find?_cons_of_pos _ (by simp)
      · rw [List.find?_cons_of_neg _ (by simp [h0])]
        have hcr : c ∈ rest := by
          rcases List.mem_cons.mp hc with rfl | hr
          · exact absurd rfl h0
          · exact hr
        exact ih hnd.2 hcr

theorem nodup_flatMap_of_mem {α β : Type} (f : α → List β) {l : List α}
    {x : α} (h : (l.flatMap f).Nodup) (hx : x ∈ l) : (f x).Nodup := by
  obtain ⟨pre, post, rfl⟩ := List.append_of_mem hx
  rw [List.flatMap_append, List.flatMap_cons] at h
  exact (h.of_append_right).of_append_left

theorem flatMap_split_disjoint {α β : Type} (f : α → List β) {pre : List α}
    {x : α} {post : List α} (h : ((pre ++ x :: post).flatMap f).Nodup)
    {y : α} (hy : y ∈ pre) {a : β} (hay : a ∈ f y) (hax : a ∈ f x) : False := by
  rw [List.flatMap_append, List.flatMap_cons] at h
  exact (List.disjoint_of_nodup_append h)
    (List.mem_flatMap.mpr ⟨y, hy, hay⟩) (List.mem_append_left _ hax)

theorem get_item_show_self {cols : List Collection} {c : Collection}
    {sh : Show} (hwf : NextUpWF cols) (hc : c ∈ cols)
    (hsh : Item.Show sh ∈ c.items) :
    get_item cols c.id sh.id = some (Item.Show sh) := by
  unfold get_item
  rw [find_collection_self hwf.1 hc, Option.some_bind]
  have hnodupc : (c.items.flatMap itemIds).Nodup :=
    nodup_flatMap_of_mem collectionItemIds hwf.2 hc
  obtain ⟨pre, post, hsplit⟩ := List.append_of_mem hsh
  rw [hsplit]
  apply findSome?_before_none
  · intro y hy
    cases hr : item_search sh.id y with
    | none => rfl
    | some r =>
        exfalso
        have hid : sh.id ∈ itemIds y := item_search_id_mem hr
        have hid2 : sh.id ∈ itemIds (Item.Show sh) := by simp [itemIds]
        have hnodupc' : ((pre ++ Item.Show sh :: post).flatMap itemIds).Nodup :=
          by rw [← hsplit]; exact hnodupc
        exact flatMap_split_disjoint itemIds hnodupc' hy hid hid2
  · simp [item_search]

theorem mem_collectionItemIds_of_show {c : Collection} {sh : Show}
    (hsh : Item.Show sh ∈ c.items) : sh.id ∈ collectionItemIds c :=
  List.mem_flatMap.mpr ⟨Item.Show sh, hsh, by simp [itemIds]⟩

theorem get_item_by_id_show {cols : List Collection} {c : Collection}
    {sh : Show} (hwf : NextUpWF cols) (hc : c ∈ cols)
    (hsh : Item.Show sh ∈ c.items) :
    get_item_by_id cols sh.id = some (c, Item.Show sh) := by
  unfold get_item_by_id
  obtain ⟨preC, postC, hsplitC⟩ := List.append_of_mem hc
  have hwf2 : ((preC ++ c :: postC).flatMap collectionItemIds).Nodup := by
    rw [← hsplitC]; exact hwf.2
  nth_rewrite 2 [hsplitC]
  apply findSome?_before_none
  · intro c' hc'
    have hc'mem : c' ∈ cols := by
      rw [hsplitC]; exact List.mem_append_left _ hc'
    suffices hgi : get_item cols c'.id sh.id = none by rw [hgi]; rfl
    unfold get_item
    rw [find_collection_self hwf.1 hc'mem, Option.some_bind]
    cases hfs : c'.items.findSome? (item_search sh.id) with
    | none => rfl
    | some rr =>
        exfalso
        obtain ⟨item, hitem, hr⟩ := List.exists_of_findSome?_eq_some hfs
        have h1 : sh.id ∈ collectionItemIds c' :=
          List.mem_flatMap.mpr ⟨item, hitem, item_search_id_mem hr⟩
        have h2 : sh.id ∈ collectionItemIds c := mem_collectionItemIds_of_show hsh
        exact flatMap_split_disjoint collectionItemIds hwf2 hc' h1 h2
  · rw [get_item_show_self hwf hc hsh]
    rfl

/-- C7: for every catalog with distinct collection ids and globally
distinct item ids, and every list of watched episode ids, `next_up`
computes per show the lexicographic maximum `(season_no, episode_no)`
pair over the resolved watched episodes, and returns for each such show
the id of the episode immediately following that episode's positional
index within the same season, or, when it was the last episode of its
season, the first episode of the next season provided that season is
non-empty; a show whose maximum watched episode has no continuation
contributes nothing, and the output has at most one episode id per show
(`next_up` equals the claim-worded `specNextUp`). -/
theorem C7_next_up (cols : List Collection) (watched : List String)
    (hwf : NextUpWF cols) :
    next_up cols watched = specNextUp cols watched := by
  have h1 : next_up cols watched
      = (buildMap (resolveWatched cols watched)).filterMap (nextUpEmit cols) := by
    unfold next_up buildMap
    rw [nextUp_fold]
  rw [h1, buildMap_eq_specMap]
  unfold specMap specNextUp
  rw [List.filterMap_filterMap]
  apply List.filterMap_congr
  intro sid hsid
  dsimp only
  have hsid' : sid ∈ (resolveWatched cols watched).map fun w => w.sh.id :=
    mem_firstOccur.mp hsid
  obtain ⟨b, hb, hbkey, hslot⟩ := nuSlot_eq hsid'
  rw [hslot, hb, Option.some_bind, Option.some_bind]
  have hbmem : b ∈ resolveWatched cols watched := by
    have hmem := (specBest_spec hb).1
    exact (List.mem_filter.mp hmem).1
  have hbmem' : b ∈ (watched.filterMap fun eid => resolveEpisode cols eid) := by
    unfold resolveWatched at hbmem
    exact hbmem
  obtain ⟨eid, _, hres⟩ := List.mem_filterMap.mp hbmem'
  obtain ⟨c, hcmem, hshmem⟩ := resolveEpisode_show_mem hres
  unfold nextUpEmit
  have hkey : (entryOf b).show_id = b.sh.id := rfl
  rw [hkey, get_item_by_id_show hwf hcmem hshmem]
  rfl

theorem C7_next_up_witness :
    NextUpWF nuCatalog ∧
    next_up nuCatalog ["e11"] = specNextUp nuCatalog ["e11"] ∧
    next_up nuCatalog ["e11"] = ["e12"] ∧
    next_up nuCatalog ["e12"] = ["e21"] ∧
    next_up nuCatalog ["e21"] = [] := by
  refine ⟨?_, C7_next_up nuCatalog ["e11"] ?_, ?_, ?_, ?_⟩
  · unfold NextUpWF; decide
  · unfold NextUpWF; decide
  · decide
  · decide
  · decide

end Jellofin
